import Mathlib

/-!
Verification of the note-classification pipeline (onenote-exporter).

Shallow embedding of the pipeline's core components, translated from the
Python sources:
  * src/llm.py        — provider clients (AntigravityLLM, ProductionLLM),
                        JSON response cleaning, validate_classification
  * src/state_manager.py — persistent state store
  * src/main.py       — pipeline driver with cascading provider fallback
  * src/file_ops.py   — file listing / write model

Python dictionaries and JSON documents are modelled by the inductive `JVal`;
Python text is modelled by `List Char` (wrapped in `String` at the API
boundary); machine floats are modelled by `ℚ` (the only observable use of a
float in the verified properties is the comparison of a confidence value
against the 0.6 threshold, which ℚ reflects faithfully for every value the
program can construct; IEEE specials are mapped to rationals beyond every
threshold the program uses).  Code that can raise is modelled with
`Except`/`Option`; exception handlers in the source become the corresponding
branches.
-/

/-- A Python/JSON value: the result of json.loads, and the shape of the
dictionaries flowing through the pipeline. -/
inductive JVal where
  | null
  | bool (b : Bool)
  | num (q : ℚ)
  | str (s : String)
  | arr (xs : List JVal)
  | obj (fields : List (String × JVal))

/-- First-match association lookup: models Python dict lookup (the parser
below keeps keys unique, last duplicate wins, as Python's json module does). -/
def getKey : List (String × JVal) → String → Option JVal
  | [], _ => none
  | (k, v) :: rest, key => if k = key then some v else getKey rest key

/-- Replace the binding of a key in place, or append it: models Python
dict item assignment (insertion order preserved, existing key overwritten). -/
def setKey : List (String × JVal) → String → JVal → List (String × JVal)
  | [], key, v => [(key, v)]
  | (k, w) :: rest, key, v =>
      if k = key then (key, v) :: rest else (k, w) :: setKey rest key v

/-- The opening brace character (written via its code point). -/
def lbrace : Char := Char.ofNat 123

/-- The closing brace character. -/
def rbrace : Char := Char.ofNat 125

/-- The backtick character used by markdown code fences. -/
def tickChar : Char := Char.ofNat 96

/-- Python str.strip() whitespace (the ASCII whitespace class; the pipeline
only ever strips model output, which is ASCII-structured). -/
def isPyWs (c : Char) : Bool :=
  c = ' ' || c = '\t' || c = '\n' || c = '\r' || c = Char.ofNat 11 || c = Char.ofNat 12

/-- JSON insignificant whitespace, as accepted by Python's json module. -/
def isJsonWs (c : Char) : Bool :=
  c = ' ' || c = '\t' || c = '\n' || c = '\r'

/-- Skip JSON whitespace. -/
def jsonSkipWs (l : List Char) : List Char := l.dropWhile isJsonWs

/-- Python str.strip(): drop leading and trailing whitespace. -/
def pyStripL (l : List Char) : List Char :=
  ((l.dropWhile isPyWs).reverse.dropWhile isPyWs).reverse

/-- Numeric value of one hex digit. -/
def hexVal (c : Char) : Option Nat :=
  if '0' ≤ c ∧ c ≤ '9' then some (c.toNat - '0'.toNat)
  else if 'a' ≤ c ∧ c ≤ 'f' then some (c.toNat - 'a'.toNat + 10)
  else if 'A' ≤ c ∧ c ≤ 'F' then some (c.toNat - 'A'.toNat + 10)
  else none

/-- Single-character JSON escapes. -/
def escChar (c : Char) : Option Char :=
  if c = '"' then some '"'
  else if c = '\\' then some '\\'
  else if c = '/' then some '/'
  else if c = 'b' then some (Char.ofNat 8)
  else if c = 'f' then some (Char.ofNat 12)
  else if c = 'n' then some '\n'
  else if c = 'r' then some '\r'
  else if c = 't' then some '\t'
  else none

/-- Parse the body of a JSON string after the opening quote; returns the
decoded characters and the input remaining after the closing quote.  Strict
mode as in Python's json module: raw control characters and unknown escapes
are rejected.  Surrogate pairing of \u escapes is not recombined (no claim
observes the decoded text of a string). -/
def parseJString (l : List Char) : Option (List Char × List Char) :=
  match l with
  | [] => none
  | c :: rest =>
    if c = '"' then some ([], rest)
    else if c = '\\' then
      match rest with
      | [] => none
      | e :: rest2 =>
        if e = 'u' then
          match rest2 with
          | h1 :: h2 :: h3 :: h4 :: rest3 =>
            match hexVal h1, hexVal h2, hexVal h3, hexVal h4 with
            | some a, some b, some c3, some d =>
              match parseJString rest3 with
              | some (s, r) => some (Char.ofNat (((a * 16 + b) * 16 + c3) * 16 + d) :: s, r)
              | none => none
            | _, _, _, _ => none
          | _ => none
        else
          match escChar e with
          | some ch =>
            match parseJString rest2 with
            | some (s, r) => some (ch :: s, r)
            | none => none
          | none => none
    else if c.toNat < 32 then none
    else
      match parseJString rest with
      | some (s, r) => some (c :: s, r)
      | none => none

/-- Decimal digit test. -/
def isDigitC (c : Char) : Bool := '0' ≤ c && c ≤ '9'

/-- Longest digit run at the head of the input. -/
def takeDigits (l : List Char) : List Char × List Char :=
  (l.takeWhile isDigitC, l.dropWhile isDigitC)

/-- Natural number denoted by a digit run. -/
def digitsToNat (ds : List Char) : Nat :=
  ds.foldl (fun acc c => acc * 10 + (c.toNat - '0'.toNat)) 0

/-- Stand-in rational for IEEE +Infinity and NaN: larger than every threshold
the program compares against, so every observable comparison agrees. -/
def hugeRat : ℚ := 1000000000

/-- Optional sign of an exponent: consume a leading plus or minus. -/
def expSign : List Char → ℤ × List Char
  | c2 :: r3 =>
    if c2 = '+' then ((1 : ℤ), r3)
    else if c2 = '-' then ((-1 : ℤ), r3)
    else ((1 : ℤ), c2 :: r3)
  | [] => ((1 : ℤ), [])

/-- The optional exponent of a JSON number: e/E, optional sign, at least one
digit; anywhere else the exponent is 0 and nothing is consumed. -/
def parseExpPart (l : List Char) : Option (ℤ × List Char) :=
  match l with
  | c :: r =>
    if c = 'e' ∨ c = 'E' then
      if (takeDigits (expSign r).2).1 = [] then none
      else some ((expSign r).1 * (digitsToNat (takeDigits (expSign r).2).1 : ℤ),
        (takeDigits (expSign r).2).2)
    else some (0, c :: r)
  | [] => some (0, [])

/-- Finish parsing a JSON number once sign, integer digits and fraction
digits are known: handle the optional exponent and build the exact rational. -/
def finishNumber (neg : Bool) (intDs fracDs l3 : List Char) : Option (ℚ × List Char) :=
  let base : ℚ := (digitsToNat (intDs ++ fracDs) : ℚ) / (10 : ℚ) ^ fracDs.length
  match parseExpPart l3 with
  | none => none
  | some (e, l4) =>
    let v := base * (10 : ℚ) ^ e
    some ((if neg then -v else v), l4)

/-- Optional leading minus of a JSON number. -/
def numSign (l : List Char) : Bool × List Char :=
  match l with
  | c :: r => if c = '-' then (true, r) else (false, c :: r)
  | [] => (false, [])

/-- Parse a JSON number (RFC 8259 grammar: optional minus, integer part with
no leading zero, optional fraction, optional exponent) into an exact rational. -/
def parseNumber (l : List Char) : Option (ℚ × List Char) :=
  match takeDigits (numSign l).2 with
  | ([], _) => none
  | (d :: ds, l2) =>
    if d = '0' ∧ ds ≠ [] then none
    else
      match l2 with
      | c :: r =>
        if c = '.' then
          if (takeDigits r).1 = [] then none
          else finishNumber (numSign l).1 (d :: ds) (takeDigits r).1 (takeDigits r).2
        else finishNumber (numSign l).1 (d :: ds) [] (c :: r)
      | [] => finishNumber (numSign l).1 (d :: ds) [] []

/-- Consume an expected literal tail. -/
def dropLit : List Char → List Char → Option (List Char)
  | [], l => some l
  | e :: es, c :: l => if c = e then dropLit es l else none
  | _ :: _, [] => none

mutual

/-- Fuel-indexed JSON value parser mirroring Python's json.loads grammar
(including its NaN/Infinity extensions).  Objects keep the last binding of a
duplicated key, as Python dicts do. -/
def parseVal (fuel : Nat) (l : List Char) : Option (JVal × List Char) :=
  match fuel with
  | 0 => none
  | Nat.succ fu =>
    match l with
    | [] => none
    | c :: rest =>
      if c = lbrace then
        match jsonSkipWs rest with
        | [] => none
        | d :: r2 =>
          if d = rbrace then some (.obj [], r2)
          else
            match parseMembers fu (d :: r2) [] with
            | some (fs, r) => some (.obj fs, r)
            | none => none
      else if c = '[' then
        match jsonSkipWs rest with
        | [] => none
        | d :: r2 =>
          if d = ']' then some (.arr [], r2)
          else
            match parseElems fu (d :: r2) [] with
            | some (vs, r) => some (.arr vs, r)
            | none => none
      else if c = '"' then
        match parseJString rest with
        | some (s, r) => some (.str (String.mk s), r)
        | none => none
      else if c = 't' then
        match dropLit ['r', 'u', 'e'] rest with
        | some r => some (.bool true, r)
        | none => none
      else if c = 'f' then
        match dropLit ['a', 'l', 's', 'e'] rest with
        | some r => some (.bool false, r)
        | none => none
      else if c = 'n' then
        match dropLit ['u', 'l', 'l'] rest with
        | some r => some (.null, r)
        | none => none
      else if c = 'N' then
        match dropLit ['a', 'N'] rest with
        | some r => some (.num hugeRat, r)
        | none => none
      else if c = 'I' then
        match dropLit ['n', 'f', 'i', 'n', 'i', 't', 'y'] rest with
        | some r => some (.num hugeRat, r)
        | none => none
      else if c = '-' ∧ rest.head? = some 'I' then
        match dropLit ['I', 'n', 'f', 'i', 'n', 'i', 't', 'y'] rest with
        | some r => some (.num (-hugeRat), r)
        | none => none
      else
        match parseNumber l with
        | some (q, r) => some (.num q, r)
        | none => none

/-- Members of a JSON object after the opening brace (first member's first
character already known not to be the closing brace). -/
def parseMembers (fuel : Nat) (l : List Char) (acc : List (String × JVal)) :
    Option (List (String × JVal) × List Char) :=
  match fuel with
  | 0 => none
  | Nat.succ fu =>
    match l with
    | c :: rest =>
      if c = '"' then
        match parseJString rest with
        | some (ks, r1) =>
          match jsonSkipWs r1 with
          | ':' :: r2 =>
            match parseVal fu (jsonSkipWs r2) with
            | some (v, r3) =>
              let acc2 := setKey acc (String.mk ks) v
              match jsonSkipWs r3 with
              | d :: r4 =>
                if d = ',' then parseMembers fu (jsonSkipWs r4) acc2
                else if d = rbrace then some (acc2, r4)
                else none
              | [] => none
            | none => none
          | _ => none
        | none => none
      else none
    | [] => none

/-- Elements of a JSON array after the opening bracket (first element known
not to be the closing bracket). -/
def parseElems (fuel : Nat) (l : List Char) (acc : List JVal) :
    Option (List JVal × List Char) :=
  match fuel with
  | 0 => none
  | Nat.succ fu =>
    match parseVal fu l with
    | some (v, r1) =>
      match jsonSkipWs r1 with
      | d :: r2 =>
        if d = ',' then parseElems fu (jsonSkipWs r2) (acc ++ [v])
        else if d = ']' then some (acc ++ [v], r2)
        else none
      | [] => none
    | none => none

end

/-- json.loads on a character list: parse one value, demand only whitespace
after it. -/
def jsonParse (l : List Char) : Option JVal :=
  match parseVal (l.length + 1) (jsonSkipWs l) with
  | some (v, r) => if jsonSkipWs r = [] then some v else none
  | none => none

/-! ## AntigravityLLM._clean_json (src/llm.py lines 366-434)

The two-phase extraction of a JSON object or array from free-form model
output: a scan of markdown code fences, then a first-bracket/last-bracket
span fallback on the stripped text. -/

/-- Head-character test (Python str.startswith with a one-character needle). -/
def headIs (l : List Char) (c : Char) : Bool :=
  match l with
  | [] => false
  | d :: _ => d = c

/-- Last-character test (Python str.endswith with a one-character needle). -/
def lastIs (l : List Char) (c : Char) : Bool :=
  match l.getLast? with
  | none => false
  | some d => d = c

/-- Break the input at the first three-backtick fence: the text before it
and the text after it, or `none` when no fence occurs. -/
def breakFence : List Char → Option (List Char × List Char)
  | [] => none
  | c :: rest =>
    if c = tickChar ∧ rest.head? = some tickChar ∧ rest.tail.head? = some tickChar then
      some ([], rest.tail.tail)
    else
      match breakFence rest with
      | some (pre, post) => some (c :: pre, post)
      | none => none

/-- Split on the three-backtick fence, scanning left to right without
overlap, with explicit fuel (each step consumes a whole fence, so the input
length bounds the recursion depth). -/
def splitTicksF : Nat → List Char → List (List Char)
  | 0, l => [l]
  | Nat.succ fu, l =>
    match breakFence l with
    | none => [l]
    | some (pre, post) => pre :: splitTicksF fu post

/-- The list-of-chunks view of Python text.split on the three-backtick fence. -/
def splitTicks (l : List Char) : List (List Char) := splitTicksF (l.length + 1) l

/-- Python `"```" in text`: at least one fence means at least two chunks. -/
def hasFence (l : List Char) : Bool := 2 ≤ (splitTicks l).length

/-- The captures of re.findall(r"```(.*?)```", text, re.DOTALL): every other
chunk, as long as its closing fence exists. -/
def fencedBlocks : List (List Char) → List (List Char)
  | _ :: p1 :: p2 :: rest => p1 :: fencedBlocks (p2 :: rest)
  | _ => []

/-- Python s.split(None, 1): skip leading whitespace, take the first word,
skip the following whitespace; `none` when there is no second part. -/
def splitFirstWord (c : List Char) : Option (List Char × List Char) :=
  let c1 := c.dropWhile isPyWs
  let w := c1.takeWhile (fun x => !isPyWs x)
  let r := (c1.dropWhile (fun x => !isPyWs x)).dropWhile isPyWs
  if r = [] then none else some (w, r)

/-- The language tags the cleaner recognises explicitly. -/
def langTags : List (List Char) :=
  ["json".toList, "json5".toList, "text".toList, "code".toList]

/-- Strip an optional leading language tag from a fenced block (lines
376-388 of src/llm.py): strip the block; if it does not open with a brace
or bracket, split off the first word and drop it when it is a known tag or
when the remainder opens with a brace or bracket. -/
def stripLangTag (m : List Char) : List Char :=
  let c := pyStripL m
  if headIs c lbrace ∨ headIs c '[' then c
  else
    match splitFirstWord c with
    | some (w, rest) =>
      let lang := w.map Char.toLower
      if langTags.contains lang ∨ headIs (pyStripL rest) lbrace ∨ headIs (pyStripL rest) '[' then
        pyStripL rest
      else c
    | none => c

/-- Phase 1 block scan (lines 370-398): return the first cleaned block that
is brace- or bracket-delimited and parses as JSON. -/
def scanBlocks : List (List Char) → Option (List Char)
  | [] => none
  | m :: rest =>
    let c := stripLangTag m
    if ((headIs c lbrace ∧ lastIs c rbrace) ∨ (headIs c '[' ∧ lastIs c ']')) ∧
        (jsonParse c).isSome then
      some c
    else scanBlocks rest

/-- First index whose character satisfies the predicate (Python str.find). -/
def firstIdx (p : Char → Bool) : List Char → Option Nat
  | [] => none
  | c :: cs => if p c then some 0 else (firstIdx p cs).map (· + 1)

/-- Last index whose character satisfies the predicate (Python str.rfind). -/
def lastIdx (p : Char → Bool) : List Char → Option Nat
  | [] => none
  | c :: cs =>
    match lastIdx p cs with
    | some i => some (i + 1)
    | none => if p c then some 0 else none

/-- Close the phase-2 span: given the start index and bracket type, locate
the last matching closer and demand that it lies after the start
(lines 418-424). -/
def spanEnd (s : List Char) (start : Nat) (isObject : Bool) : Option (Nat × Nat) :=
  match lastIdx (fun c => c = (if isObject then rbrace else ']')) s with
  | some e => if start < e then some (start, e) else none
  | none => none

/-- Select the phase-2 start index and bracket type (lines 404-416): the
first brace wins when it precedes the first bracket. -/
def spanBounds (s : List Char) : Option (Nat × Nat) :=
  let fb := firstIdx (fun c => c = lbrace) s
  let fk := firstIdx (fun c => c = '[') s
  match fb, fk with
  | some b, none => spanEnd s b true
  | some b, some k => if b < k then spanEnd s b true else spanEnd s k false
  | none, some k => spanEnd s k false
  | none, none => none

/-- Phase 2 (lines 400-431): slice text[start:end+1] and keep it only if it
parses as JSON. -/
def phase2 (s : List Char) : Option (List Char) :=
  match spanBounds s with
  | some (start, e) =>
    let cand := (s.take (e + 1)).drop start
    if (jsonParse cand).isSome then some cand else none
  | none => none

/-- AntigravityLLM._clean_json on characters: phase 1 over fenced blocks if
a fence is present, else (and on phase-1 failure) strip the text and apply
phase 2; if that fails too, the result is the stripped text. -/
def cleanJsonL (t : List Char) : List Char :=
  let p1 := if hasFence t then scanBlocks (fencedBlocks (splitTicks t)) else none
  match p1 with
  | some c => c
  | none =>
    let s := pyStripL t
    match phase2 s with
    | some cand => cand
    | none => s

/-- AntigravityLLM._clean_json (String boundary). -/
def clean_json (t : String) : String := String.mk (cleanJsonL t.toList)

/-! ## Configuration constants (src/config.py) -/

/-- Valid classification types (config.VALID_TYPES). -/
def VALID_TYPES : List String := ["reference", "problems", "thinking", "inbox"]

/-- Valid classification contexts (config.VALID_CONTEXTS). -/
def VALID_CONTEXTS : List String := ["personal", "work", "practice", "research", "debugging"]

/-- config.CONFIDENCE_THRESHOLD, the rational 0.6. -/
def CONFIDENCE_THRESHOLD : ℚ := mkRat 6 10

/-! ## validate_classification (src/llm.py lines 502-540)

The content validator.  In the source it mutates its dict argument in place
and returns that same dict; `validate_classification` below is the returned
value and `validate_argument_after` the observable post-call state of the
caller's argument. -/

/-- Python float() of a string: strip whitespace, optional sign, then either
a decimal literal (digits, optional fraction, optional exponent; Python also
accepts a bare leading or trailing dot) or inf/infinity/nan.  IEEE specials
map to rationals beyond every threshold the program compares against (the
sign of nan is ignored, as every comparison the program makes treats nan
like a large value: nan < threshold is false in Python). -/
def pyFloatOfChars (l0 : List Char) : Option ℚ :=
  let l1 := pyStripL l0
  let (neg, l2) := match l1 with
    | c :: r =>
      if c = '-' then (true, r)
      else if c = '+' then (false, r)
      else (false, l1)
    | [] => (false, l1)
  let lw := l2.map Char.toLower
  if lw = "inf".toList ∨ lw = "infinity".toList then
    some (if neg then -hugeRat else hugeRat)
  else if lw = "nan".toList then some hugeRat
  else
    let (intDs, l3) := takeDigits l2
    let (fracDs, l4) := match l3 with
      | c :: r => if c = '.' then takeDigits r else ([], l3)
      | [] => ([], l3)
    if intDs = [] ∧ fracDs = [] then none
    else
      let base : ℚ := (digitsToNat (intDs ++ fracDs) : ℚ) / (10 : ℚ) ^ fracDs.length
      match l4 with
      | [] => some (if neg then -base else base)
      | c :: r =>
        if c = 'e' then
          let (esign, r2) := match r with
            | c2 :: r3 =>
              if c2 = '+' then ((1 : ℤ), r3)
              else if c2 = '-' then ((-1 : ℤ), r3)
              else ((1 : ℤ), r)
            | [] => ((1 : ℤ), r)
          match takeDigits r2 with
          | ([], _) => none
          | (eds, r4) =>
            if r4 = [] then
              let v := base * (10 : ℚ) ^ ((esign * (digitsToNat eds : ℤ)))
              some (if neg then -v else v)
            else none
        else none

/-- Python float() coercion of a value: numbers pass through, booleans
become 0/1, strings are parsed, everything else raises (None).  Mirrors the
try/except around float(data.get("confidence", 0.0)). -/
def pyFloat : JVal → Option ℚ
  | .num q => some q
  | .bool b => some (if b then 1 else 0)
  | .str s => pyFloatOfChars ((s.toList).map Char.toLower)
  | _ => none

/-- Python str() of a tag element.  Strings pass through; the renderings of
the other shapes approximate CPython's (no verified property observes the
rendered text of a non-string tag, only that the result is a string). -/
def pyToStr : JVal → String
  | .str s => s
  | .bool b => if b then "True" else "False"
  | .null => "None"
  | .num q => toString q
  | .arr _ => "<list>"
  | .obj _ => "<dict>"

/-- The full default fallback returned for non-dict input (lines 506-514). -/
def fallbackClassification : JVal :=
  .obj [("type", .str "inbox"), ("context", .str "practice"),
        ("tags", .arr []), ("confidence", .num 0)]

/-- Membership of the raw type field in VALID_TYPES (line 517: a non-string
or missing value is never in the list). -/
def typeValid : Option JVal → Bool
  | some (.str s) => VALID_TYPES.contains s
  | _ => false

/-- Membership of the raw context field in VALID_CONTEXTS (line 521). -/
def ctxValid : Option JVal → Bool
  | some (.str s) => VALID_CONTEXTS.contains s
  | _ => false

/-- isinstance(x, list) on the raw tags field (line 525). -/
def isArrVal : Option JVal → Bool
  | some (.arr _) => true
  | _ => false

/-- The element list of a tags field known to be a list. -/
def arrElems : Option JVal → List JVal
  | some (.arr xs) => xs
  | _ => []

/-- The coerced confidence (lines 530-533): data.get("confidence", 0.0)
parsed as float, 0.0 on absence or on any coercion failure. -/
def confOf (fields : List (String × JVal)) : ℚ :=
  match getKey fields "confidence" with
  | none => 0
  | some v => (pyFloat v).getD 0

/-- Lines 516-518: an out-of-set type becomes "inbox". -/
def applyTypeRule (fields : List (String × JVal)) : List (String × JVal) :=
  if typeValid (getKey fields "type") then fields
  else setKey fields "type" (.str "inbox")

/-- Lines 520-522: an out-of-set context becomes "practice". -/
def applyCtxRule (fields : List (String × JVal)) : List (String × JVal) :=
  if ctxValid (getKey fields "context") then fields
  else setKey fields "context" (.str "practice")

/-- Lines 524-527: a non-list tags becomes [], then tags is replaced by its
first five elements coerced to strings. -/
def applyTagsRule (fields : List (String × JVal)) : List (String × JVal) :=
  let f3 := if isArrVal (getKey fields "tags") then fields
            else setKey fields "tags" (.arr [])
  setKey f3 "tags"
    (.arr (((arrElems (getKey f3 "tags")).take 5).map (fun t => .str (pyToStr t))))

/-- Lines 529-539: coerce the confidence, force type to "inbox" below the
threshold, store the coerced confidence. -/
def applyConfRule (fields : List (String × JVal)) : List (String × JVal) :=
  let conf := confOf fields
  setKey (if conf < CONFIDENCE_THRESHOLD then setKey fields "type" (.str "inbox") else fields)
    "confidence" (.num conf)

/-- validate_classification: the returned value, as the source's statement
sequence applied in order to a dict input. -/
def validate_classification : JVal → JVal
  | .obj fields => .obj (applyConfRule (applyTagsRule (applyCtxRule (applyTypeRule fields))))
  | _ => fallbackClassification

/-- The observable state of the caller's argument after the call: for a dict
argument every correction in the source is an in-place item assignment on
that dict and the function returns the same object, so the argument ends
equal to the returned value; a non-dict argument is never touched (the
fallback is a fresh dict). -/
def validate_argument_after (d : JVal) : JVal :=
  match d with
  | .obj _ => validate_classification d
  | _ => d

/-- Field access on a dict-shaped value. -/
def jget (v : JVal) (k : String) : Option JVal :=
  match v with
  | .obj fields => getKey fields k
  | _ => none

/-- The coerced confidence as a function of the input value, before any of
the function's own writes: the "confidence" key is read only after writes to
the distinct keys "type", "context" and "tags", so it equals the coercion of
the caller's original field. -/
def coercedConfidence : JVal → ℚ
  | .obj fields => confOf fields
  | _ => 0

/-! ## AntigravityLLM transport calls (src/llm.py lines 252-364, 436-471)

The HTTP transport is an input: either the request raised, or a response
with a status code and a body arrived.  The whole body of _call_api sits in
one try whose handler catches every Exception — including the
PermissionError the 401 branch itself raises — and returns "\x7b\x7d". -/

/-- Outcome of requests.post as seen by _call_api. -/
inductive HttpResult where
  | exc
  | resp (status : Nat) (body : String)

/-- Python truthiness of a value (used by `if candidates:`). -/
def truthy : JVal → Bool
  | .null => false
  | .bool b => b
  | .num q => decide (q ≠ 0)
  | .str s => decide (s ≠ "")
  | .arr xs => !xs.isEmpty
  | .obj fs => !fs.isEmpty

/-- Sublist-of-characters test (Python `needle in text` on strings). -/
def startsL : List Char → List Char → Bool
  | [], _ => true
  | _ :: _, [] => false
  | a :: as, b :: bs => a = b && startsL as bs

/-- Substring containment. -/
def containsSub (sub : List Char) : List Char → Bool
  | [] => startsL sub []
  | c :: rest => startsL sub (c :: rest) || containsSub sub rest

/-- Python `key in value`: dict key test, list membership, substring test on
strings; anything else raises TypeError (none). -/
def pyContains (v : JVal) (k : String) : Option Bool :=
  match v with
  | .obj fields => some (getKey fields k).isSome
  | .arr xs => some (xs.any (fun x => match x with | .str s => decide (s = k) | _ => false))
  | .str s => some (containsSub k.toList s.toList)
  | _ => none

/-- Python value[key] with a string key: dict lookup (KeyError when absent);
every other shape raises TypeError.  none models the raised exception. -/
def pyIndexStr (v : JVal) (k : String) : Option JVal :=
  match v with
  | .obj fields => getKey fields k
  | _ => none

/-- Python value[0]: list head (the caller has already established
truthiness, so the list is non-empty), one-character string for strings;
every other shape raises.  none models the raised exception. -/
def pyIndexZero : JVal → Option JVal
  | .arr (x :: _) => some x
  | .str s =>
    match s.toList with
    | c :: _ => some (JVal.str (String.mk [c]))
    | [] => none
  | _ => none

/-- Lines 334-338: candidates from data['candidates'], else from
data['response']['candidates'], else the initial empty list.  An exception
anywhere (TypeError from `in` or from indexing a non-dict) is .error and is
caught by _call_api's own handler. -/
def candidatesOf (data : JVal) : Except String JVal :=
  match pyContains data "candidates" with
  | none => .error "TypeError"
  | some true =>
    match pyIndexStr data "candidates" with
    | some v => .ok v
    | none => .error "TypeError"
  | some false =>
    match pyContains data "response" with
    | none => .error "TypeError"
    | some true =>
      match pyIndexStr data "response" with
      | none => .error "TypeError"
      | some resp =>
        match pyContains resp "candidates" with
        | none => .error "TypeError"
        | some true =>
          match pyIndexStr resp "candidates" with
          | some v => .ok v
          | none => .error "TypeError"
        | some false => .ok (JVal.arr [])
    | some false => .ok (JVal.arr [])

/-- Lines 345-348: concatenate part.get('text', "") over the parts list.
A part that is not a dict raises (AttributeError), a present non-string
text raises (TypeError on +=): both collapse to none and end in "\x7b\x7d"
through one of the two surrounding handlers. -/
def concatTexts : List JVal → Option String
  | [] => some ""
  | p :: rest =>
    match p with
    | .obj fields =>
      match getKey fields "text" with
      | none =>
        concatTexts rest
      | some (.str s) =>
        match concatTexts rest with
        | some t => some (s ++ t)
        | none => none
      | some _ => none
    | _ => none

/-- Lines 340-360: extract the concatenated candidate text from the parsed
response document; every failure path ends in "\x7b\x7d". -/
def extractText (data : JVal) : Except String String :=
  match candidatesOf data with
  | .error e => .error e
  | .ok candidates =>
    if truthy candidates then
      match pyIndexZero candidates with
      | none => .ok "\x7b\x7d"
      | some c0 =>
        match pyIndexStr c0 "content" with
        | none => .ok "\x7b\x7d"
        | some content =>
          match pyIndexStr content "parts" with
          | none => .ok "\x7b\x7d"
          | some parts =>
            match parts with
            | .arr ps =>
              match concatTexts ps with
              | none => .ok "\x7b\x7d"
              | some txt => if txt = "" then .ok "\x7b\x7d" else .ok txt
            | _ => .ok "\x7b\x7d"
    else .ok "\x7b\x7d"

/-- The body of _call_api's try block (lines 316-360): 401 raises
PermissionError, any other non-200 returns "\x7b\x7d", a 200 parses the body
(a parse failure raises) and extracts the candidate text. -/
def call_api_try (r : HttpResult) : Except String String :=
  match r with
  | .exc => .error "requests exception"
  | .resp status body =>
    if status = 401 then .error "PermissionError: Antigravity API 401 Unauthorized"
    else if status ≠ 200 then .ok "\x7b\x7d"
    else
      match jsonParse body.toList with
      | none => .error "JSONDecodeError"
      | some data =>
        match extractText data with
        | .error e => .error e
        | .ok s => .ok s

/-- AntigravityLLM._call_api: the try body wrapped in `except Exception`,
which logs and returns "\x7b\x7d" — so nothing ever escapes, including the
PermissionError raised two lines above it. -/
def call_api (r : HttpResult) : Except String String :=
  match call_api_try r with
  | .ok s => .ok s
  | .error _ => .ok "\x7b\x7d"

/-- AntigravityLLM.classify_note (lines 436-455): clean the transport text
and parse it; a parse failure becomes the empty dict. -/
def antigravity_classify_note (r : HttpResult) : Except String JVal :=
  match call_api r with
  | .error e => .error e
  | .ok response_text =>
    match jsonParse (cleanJsonL response_text.toList) with
    | some v => .ok v
    | none => .ok (JVal.obj [])

/-- AntigravityLLM.extract_par (lines 457-471): same shape with the empty
PAR fallback. -/
def antigravity_extract_par (r : HttpResult) : Except String JVal :=
  match call_api r with
  | .error e => .error e
  | .ok response_text =>
    match jsonParse (cleanJsonL response_text.toList) with
    | some v => .ok v
    | none => .ok (JVal.obj [("problem", .str ""), ("action", .str ""), ("result", .str "")])

/-! ## ProductionLLM._call_llm (src/llm.py lines 93-137)

The retry loop over at most five attempts; the transport outcome of each
attempt is an input. -/

/-- Outcome of one chat-completion attempt. -/
inductive Attempt where
  | success (content : String)
  | rateLimit
  | apiError (status : Nat)
  | otherExc

/-- The attempt loop: rate limits and 429 api errors sleep and retry, any
other api error or exception returns "\x7b\x7d", exhausting the five
attempts returns "\x7b\x7d". -/
def call_llm_from (att : Nat → Attempt) : Nat → Nat → Except String String
  | _, 0 => .ok "\x7b\x7d"
  | i, Nat.succ k =>
    match att i with
    | .success c => .ok c
    | .rateLimit => call_llm_from att (i + 1) k
    | .apiError s =>
        if s = 429 then call_llm_from att (i + 1) k
        else .ok "\x7b\x7d"
    | .otherExc => .ok "\x7b\x7d"

/-- ProductionLLM._call_llm with max_retries = 5. -/
def call_llm (att : Nat → Attempt) : Except String String :=
  call_llm_from att 0 5

/-! ## StateManager (src/state_manager.py)

The state file's on-disk content is an input: absent, or a byte list.
Python opens it with encoding='utf-8' and json.load's it inside a try that
catches only json.JSONDecodeError. -/

/-- The empty state a fresh or corrupt store starts from. -/
def emptyState : JVal := .obj [("processed_files", .obj [])]

/-- Strict UTF-8 decoding of a byte list (RFC 3629: no overlong forms, no
surrogates, at most U+10FFFF), as Python's utf-8 codec enforces. -/
def utf8Decode : List Nat → Option (List Char)
  | [] => some []
  | b1 :: rest =>
    if b1 < 128 then
      match utf8Decode rest with
      | some cs => some (Char.ofNat b1 :: cs)
      | none => none
    else if 194 ≤ b1 ∧ b1 ≤ 223 then
      match rest with
      | b2 :: rest2 =>
        if 128 ≤ b2 ∧ b2 ≤ 191 then
          match utf8Decode rest2 with
          | some cs => some (Char.ofNat ((b1 - 192) * 64 + (b2 - 128)) :: cs)
          | none => none
        else none
      | [] => none
    else if 224 ≤ b1 ∧ b1 ≤ 239 then
      match rest with
      | b2 :: b3 :: rest2 =>
        let lo2 := if b1 = 224 then 160 else 128
        let hi2 := if b1 = 237 then 159 else 191
        if (lo2 ≤ b2 ∧ b2 ≤ hi2) ∧ (128 ≤ b3 ∧ b3 ≤ 191) then
          match utf8Decode rest2 with
          | some cs =>
            some (Char.ofNat (((b1 - 224) * 64 + (b2 - 128)) * 64 + (b3 - 128)) :: cs)
          | none => none
        else none
      | _ => none
    else if 240 ≤ b1 ∧ b1 ≤ 244 then
      match rest with
      | b2 :: b3 :: b4 :: rest2 =>
        let lo2 := if b1 = 240 then 144 else 128
        let hi2 := if b1 = 244 then 143 else 191
        if (lo2 ≤ b2 ∧ b2 ≤ hi2) ∧ (128 ≤ b3 ∧ b3 ≤ 191) ∧ (128 ≤ b4 ∧ b4 ≤ 191) then
          match utf8Decode rest2 with
          | some cs =>
            some (Char.ofNat ((((b1 - 240) * 64 + (b2 - 128)) * 64 + (b3 - 128)) * 64
                    + (b4 - 128)) :: cs)
          | none => none
        else none
      | _ => none
    else none

/-- StateManager._load_state over the on-disk bytes (lines 12-20): a missing
file starts empty; a file that decodes and fails JSON parsing logs a warning
and starts empty (the caught json.JSONDecodeError); a file that parses is
used as the state document unchanged; a file whose bytes are not UTF-8
raises UnicodeDecodeError out of the constructor (only JSONDecodeError is
caught). -/
def load_state (disk : Option (List Nat)) : Except String JVal :=
  match disk with
  | none => .ok emptyState
  | some bytes =>
    match utf8Decode bytes with
    | none => .error "UnicodeDecodeError"
    | some text =>
      match jsonParse text with
      | none => .ok emptyState
      | some doc => .ok doc

/-! ## Pipeline driver (src/main.py lines 87-288)

The driver's per-run state of the store is the well-formed document the
store itself maintains: a mapping from file name to record. -/

/-- One persisted record (the timestamp in the source is a file-system
modification time, an environment value with no verified property; the
record carries the pipeline-visible fields). -/
structure FileRec where
  status : String
  classification : Option JVal

/-- The in-memory processed_files mapping. -/
abbrev StateSt := List (String × FileRec)

/-- Association lookup for records. -/
def lookupRec : List (String × FileRec) → String → Option FileRec
  | [], _ => none
  | (k, r) :: rest, key => if k = key then some r else lookupRec rest key

/-- Association update for records (overwrite or append, as dict assignment). -/
def setRec : List (String × FileRec) → String → FileRec → List (String × FileRec)
  | [], key, r => [(key, r)]
  | (k, r0) :: rest, key, r =>
      if k = key then (key, r) :: rest else (k, r0) :: setRec rest key r

/-- StateManager.is_processed (lines 43-45): a record exists and its status
is exactly "completed". -/
def is_processed (st : StateSt) (file_name : String) : Bool :=
  match lookupRec st file_name with
  | some r => r.status = "completed"
  | none => false

/-- StateManager.mark_processed (lines 29-41): overwrite the record (the
save_state it triggers is the stateSave write the driver model logs). -/
def mark_processed (st : StateSt) (file_name : String) (status : String)
    (classification : Option JVal) : StateSt :=
  setRec st file_name ⟨status, classification⟩

/-- Providers the driver can hold: the three classes defined in src/llm.py,
plus the Groq and local OpenAI-compatible clients the fallback chain
constructs (their classes are referenced by src/main.py; the driver only
observes them through isinstance checks and calls, which is all the model
needs). -/
inductive ProviderC where
  | antigravity
  | production
  | mock
  | groq
  | localL
deriving DecidableEq

/-- Demotion rank: the fallback chain only ever moves down. -/
def provRank : ProviderC → Nat
  | .localL => 0
  | .groq => 1
  | _ => 2

/-- The two provider operations a file needs. -/
inductive CallKind where
  | classify
  | par
deriving DecidableEq

/-- Outcome of one provider call, as the driver's handlers distinguish them:
BlockingIOError (the quota-exhaustion signal), the caught tuple
(RuntimeError, PermissionError, TimeoutError), any other Exception (caught
by the per-file handler), or a value. -/
inductive Outcome where
  | ok (v : JVal)
  | quota
  | hardFail
  | otherExc

/-- The run environment: which credentials are present, whether the fallback
constructors succeed, and the outcome each provider produces for each
operation on each file.  Within one fallback loop each provider is consulted
at most once, so a per-(provider, operation, file) outcome determines the
loop. -/
structure Env where
  groqKey : Bool
  groqInitOk : Bool
  localInitOk : Bool
  call : ProviderC → CallKind → String → Outcome

/-- Result of the while-True fallback loop around one classify or
extract_par call: the value with the provider the driver now holds, a
sys.exit(1), or an exception escaping to the per-file handler. -/
inductive LoopResult where
  | success (v : JVal) (p : ProviderC)
  | fatal
  | raised (p : ProviderC)

/-- The loop running with the LocalLLM client: quota has no further
fallback (the else branch exits) and a hard failure is not the Groq case,
so both exit. -/
def loopLocal (e : Env) (k : CallKind) (f : String) : LoopResult :=
  match e.call .localL k f with
  | .ok v => .success v .localL
  | .otherExc => .raised .localL
  | .quota => .fatal
  | .hardFail => .fatal

/-- Construct the LocalLLM fallback and continue the loop with it, or exit
when its constructor raises (lines 161-171). -/
def switchToLocal (e : Env) (k : CallKind) (f : String) : LoopResult :=
  if e.localInitOk then loopLocal e k f else .fatal

/-- The loop running with the GroqLLM client: quota falls to the local
switch (the client is not AntigravityLLM), and the caught hard-failure
tuple also falls to the local switch (isinstance GroqLLM). -/
def loopGroq (e : Env) (k : CallKind) (f : String) : LoopResult :=
  match e.call .groq k f with
  | .ok v => .success v .groq
  | .otherExc => .raised .groq
  | .quota => switchToLocal e k f
  | .hardFail => switchToLocal e k f

/-- The while-True fallback loop of src/main.py lines 140-194 (and its
verbatim copy for extract_par, lines 211-259), entered with the client the
driver currently holds.  On BlockingIOError: an AntigravityLLM client with a
Groq key switches to Groq when that constructor succeeds; otherwise any
non-local client tries the local switch and a local client exits.  On the
caught (RuntimeError, PermissionError, TimeoutError) tuple: only a GroqLLM
client falls to the local switch; every other client exits. -/
def fallbackLoop (e : Env) (k : CallKind) (f : String) (p : ProviderC) : LoopResult :=
  match e.call p k f with
  | .ok v => .success v p
  | .otherExc => .raised p
  | .quota =>
    if p = .antigravity ∧ e.groqKey ∧ e.groqInitOk then loopGroq e k f
    else if p ≠ .localL then switchToLocal e k f
    else .fatal
  | .hardFail =>
    if p = .groq then switchToLocal e k f else .fatal

/-- One input file: its path relative to the input directory (the model
context hint), its base name (the state key and destination name) and its
stem (the summary name).  The listing get_markdown_files produces is
recursive (rglob) and sorted, so distinct files in different subdirectories
can carry equal base names. -/
structure NoteFile where
  relPath : String
  name : String
  stem : String
  content : String

/-- The observable writes of a run: a destination file under the type
subdirectory, a summary document named by stem, and a state-document save. -/
inductive WriteOp where
  | dest (subdir : String) (name : String)
  | par (stem : String)
  | stateSave

/-- The type field of a validated classification, as the driver reads it for
the destination subdirectory (always a string after validation). -/
def classificationType (c : JVal) : String :=
  match jget c "type" with
  | some (.str s) => s
  | _ => ""

/-- Result of processing one file: continue with accumulated writes, new
state and (possibly demoted) client, or abort the run (sys.exit(1), which
the per-file `except Exception` does not catch since SystemExit is not an
Exception). -/
inductive StepRes where
  | cont (ws : List WriteOp) (st : StateSt) (p : ProviderC)
  | halt (ws : List WriteOp)

/-- The per-file body of main's loop (lines 113-282): skip when already
completed; classify through the fallback loop; validate; write the
destination; extract the summary through the fallback loop; write the
summary; mark completed (which saves state).  A raised exception reaches the
per-file handler, which logs and continues with nothing written for this
file beyond what already happened. -/
def stepFile (e : Env) (p : ProviderC) (st : StateSt) (f : NoteFile) : StepRes :=
  if is_processed st f.name then .cont [] st p
  else
    match fallbackLoop e .classify f.relPath p with
    | .fatal => .halt []
    | .raised p1 => .cont [] st p1
    | .success raw p1 =>
      let classification := validate_classification raw
      let ws1 := [WriteOp.dest (classificationType classification) f.name]
      match fallbackLoop e .par f.relPath p1 with
      | .fatal => .halt ws1
      | .raised p2 => .cont ws1 st p2
      | .success _ p2 =>
        .cont (ws1 ++ [WriteOp.par f.stem, WriteOp.stateSave])
          (mark_processed st f.name "completed" (some classification)) p2

/-- End state of a run: completion with its writes, final state and final
client, or a process exit with the given code and the writes made so far. -/
inductive RunOutcome where
  | finished (ws : List WriteOp) (st : StateSt) (p : ProviderC)
  | exited (code : Nat) (ws : List WriteOp)

/-- The driver's file loop over the sorted listing. -/
def processFiles (e : Env) : ProviderC → StateSt → List NoteFile → RunOutcome
  | p, st, [] => .finished [] st p
  | p, st, f :: rest =>
    match stepFile e p st f with
    | .halt ws => .exited 1 ws
    | .cont ws st2 p2 =>
      match processFiles e p2 st2 rest with
      | .finished ws2 st3 p3 => .finished (ws ++ ws2) st3 p3
      | .exited c ws2 => .exited c (ws ++ ws2)

/-! ## Concrete fixtures used by witnesses and counterexamples -/

/-- An environment in which every provider call succeeds with the empty dict. -/
def envAllOk : Env := ⟨true, true, true, fun _ _ _ => .ok (JVal.obj [])⟩

/-- An environment in which the Antigravity client hard-fails while the Groq
tier is fully available and would succeed. -/
def envHardAtTop : Env :=
  ⟨true, true, true, fun p _ _ => if p = .antigravity then .hardFail else .ok (JVal.obj [])⟩

/-- An environment in which the Antigravity client signals quota exhaustion
and the Groq tier succeeds. -/
def envQuotaAtTop : Env :=
  ⟨true, true, true, fun p _ _ => if p = .antigravity then .quota else .ok (JVal.obj [])⟩

/-- An environment with no Groq credential, a failing local constructor, and
quota exhaustion everywhere: the chain is exhausted at the first file. -/
def envExhausted : Env := ⟨false, true, false, fun _ _ _ => .quota⟩

/-- A note under subdirectory a. -/
def fileA : NoteFile := ⟨"a/x.md", "x.md", "x", "alpha"⟩

/-- A distinct note under subdirectory b with the same base name. -/
def fileB : NoteFile := ⟨"b/x.md", "x.md", "x", "beta"⟩

/-! ## Claim C7: spec-side two-phase description

Definitions following the claim's words, to be compared with the source
transcription cleanJsonL. -/

/-- The claim's acceptance test: the candidate parses as a JSON object or a
JSON array. -/
def isJsonObjOrArr (c : List Char) : Bool :=
  match jsonParse c with
  | some (.obj _) => true
  | some (.arr _) => true
  | _ => false

/-- Phase 1 per the claim: scan the fenced code blocks in order, strip the
optional leading language tag, return the first block that parses as a JSON
object or array. -/
def phase1Spec (t : List Char) : Option (List Char) :=
  ((fencedBlocks (splitTicks t)).map stripLangTag).find? isJsonObjOrArr

/-- Phase 2 per the claim: one scan for the first opening brace or bracket —
whichever occurs first fixes object versus array (the character found at
that position) — then the last matching closer bounds the span, which is
returned if it parses. -/
def phase2Spec (s : List Char) : Option (List Char) :=
  match firstIdx (fun c => c = lbrace || c = '[') s with
  | none => none
  | some i =>
    match spanEnd s i (decide (s.get? i = some lbrace)) with
    | some (start, e) =>
      let cand := (s.take (e + 1)).drop start
      if (jsonParse cand).isSome then some cand else none
    | none => none

/-- The claim's two-phase algorithm with the amended fallback: phase 1 over
the fenced blocks; otherwise phase 2 over the stripped text; otherwise the
stripped text itself. -/
def cleanJsonSpecL (t : List Char) : List Char :=
  match phase1Spec t with
  | some c => c
  | none =>
    match phase2Spec (pyStripL t) with
    | some c => c
    | none => pyStripL t

/-- No leading or trailing Python whitespace. -/
def noEdgeWs (l : List Char) : Prop :=
  (∀ x ∈ l.head?, isPyWs x = false) ∧ (∀ x ∈ l.getLast?, isPyWs x = false)

/-! ## Lemmas: association lists and whitespace -/

theorem getKey_setKey_self (l : List (String × JVal)) (k : String) (v : JVal) :
    getKey (setKey l k v) k = some v := by
  induction l with
  | nil => simp [getKey, setKey]
  | cons hd tl ih =>
      obtain ⟨k0, v0⟩ := hd
      by_cases h : k0 = k <;> simp [getKey, setKey, h, ih]

theorem getKey_setKey_ne (l : List (String × JVal)) (k k2 : String) (v : JVal)
    (h : k2 ≠ k) : getKey (setKey l k2 v) k = getKey l k := by
  induction l with
  | nil => simp [getKey, setKey, h]
  | cons hd tl ih =>
      obtain ⟨k0, v0⟩ := hd
      by_cases h0 : k0 = k2
      · subst h0
        simp [getKey, setKey, h]
      · simp only [setKey, if_neg h0, getKey]
        by_cases h1 : k0 = k <;> simp [h1, ih]

theorem isJsonWs_isPyWs {c : Char} (h : isJsonWs c = true) : isPyWs c = true := by
  simp only [isJsonWs, Bool.or_eq_true, decide_eq_true_eq] at h
  simp only [isPyWs, Bool.or_eq_true, decide_eq_true_eq]
  tauto

/-! ## Lemmas: the content validator -/

theorem typeValid_elim {o : Option JVal} (h : typeValid o = true) :
    ∃ s, o = some (.str s) ∧ s ∈ VALID_TYPES := by
  match o with
  | some (.str s) =>
    refine ⟨s, rfl, ?_⟩
    simpa [typeValid, List.contains_iff_exists_mem_beq] using h
  | none | some .null | some (.bool _) | some (.num _) | some (.arr _) | some (.obj _) =>
    simp [typeValid] at h

theorem ctxValid_elim {o : Option JVal} (h : ctxValid o = true) :
    ∃ s, o = some (.str s) ∧ s ∈ VALID_CONTEXTS := by
  match o with
  | some (.str s) =>
    refine ⟨s, rfl, ?_⟩
    simpa [ctxValid, List.contains_iff_exists_mem_beq] using h
  | none | some .null | some (.bool _) | some (.num _) | some (.arr _) | some (.obj _) =>
    simp [ctxValid] at h

theorem getKey_applyTypeRule_ne (f : List (String × JVal)) (k : String)
    (h : k ≠ "type") : getKey (applyTypeRule f) k = getKey f k := by
  unfold applyTypeRule
  split
  · rfl
  · exact getKey_setKey_ne f k "type" _ (fun hh => h hh.symm)

theorem getKey_applyCtxRule_ne (f : List (String × JVal)) (k : String)
    (h : k ≠ "context") : getKey (applyCtxRule f) k = getKey f k := by
  unfold applyCtxRule
  split
  · rfl
  · exact getKey_setKey_ne f k "context" _ (fun hh => h hh.symm)

theorem getKey_applyTagsRule_ne (f : List (String × JVal)) (k : String)
    (h : k ≠ "tags") : getKey (applyTagsRule f) k = getKey f k := by
  unfold applyTagsRule
  have hne : ("tags" : String) ≠ k := fun hh => h hh.symm
  split
  · exact getKey_setKey_ne _ k "tags" _ hne
  · rw [getKey_setKey_ne _ k "tags" _ hne, getKey_setKey_ne _ k "tags" _ hne]

theorem type_after_typeRule (f : List (String × JVal)) :
    ∃ s, getKey (applyTypeRule f) "type" = some (.str s) ∧ s ∈ VALID_TYPES := by
  unfold applyTypeRule
  by_cases h : typeValid (getKey f "type") = true
  · obtain ⟨s, hs, hmem⟩ := typeValid_elim h
    rw [hs] at h
    exact ⟨s, by simp [h, hs], hmem⟩
  · refine ⟨"inbox", ?_, by simp [VALID_TYPES]⟩
    simp only [Bool.not_eq_true] at h
    simp [h, getKey_setKey_self]

theorem ctx_after_ctxRule (f : List (String × JVal)) :
    ∃ s, getKey (applyCtxRule f) "context" = some (.str s) ∧ s ∈ VALID_CONTEXTS := by
  unfold applyCtxRule
  by_cases h : ctxValid (getKey f "context") = true
  · obtain ⟨s, hs, hmem⟩ := ctxValid_elim h
    rw [hs] at h
    exact ⟨s, by simp [h, hs], hmem⟩
  · refine ⟨"practice", ?_, by simp [VALID_CONTEXTS]⟩
    simp only [Bool.not_eq_true] at h
    simp [h, getKey_setKey_self]

theorem tags_after_tagsRule (f : List (String × JVal)) :
    ∃ ts : List JVal, getKey (applyTagsRule f) "tags" = some (.arr ts) ∧
      ts.length ≤ 5 ∧ ∀ t ∈ ts, ∃ s, t = JVal.str s := by
  simp only [applyTagsRule]
  refine ⟨_, getKey_setKey_self _ _ _, ?_, ?_⟩
  · rw [List.length_map]
    exact List.length_take_le 5 _
  · intro t ht
    rw [List.mem_map] at ht
    obtain ⟨x, _, hx⟩ := ht
    exact ⟨pyToStr x, hx.symm⟩

theorem confOf_chain (fields : List (String × JVal)) :
    confOf (applyTagsRule (applyCtxRule (applyTypeRule fields))) = confOf fields := by
  unfold confOf
  rw [getKey_applyTagsRule_ne _ _ (by decide), getKey_applyCtxRule_ne _ _ (by decide),
    getKey_applyTypeRule_ne _ _ (by decide)]

/-! ## Lemmas: the record store -/

theorem lookupRec_setRec_self (l : List (String × FileRec)) (k : String) (r : FileRec) :
    lookupRec (setRec l k r) k = some r := by
  induction l with
  | nil => simp [lookupRec, setRec]
  | cons hd tl ih =>
      obtain ⟨k0, r0⟩ := hd
      by_cases h : k0 = k <;> simp [lookupRec, setRec, h, ih]

/-! ## Lemmas: the fallback loop -/

theorem fallbackLoop_localL (e : Env) (k : CallKind) (f : String) :
    fallbackLoop e k f .localL = loopLocal e k f := by
  cases h : e.call .localL k f <;> simp [fallbackLoop, loopLocal, h]

theorem fallbackLoop_groq (e : Env) (k : CallKind) (f : String) :
    fallbackLoop e k f .groq = loopGroq e k f := by
  cases h : e.call .groq k f <;> simp [fallbackLoop, loopGroq, h]

theorem switchToLocal_success {e : Env} {k : CallKind} {f : String} {v : JVal} {p2 : ProviderC}
    (h : switchToLocal e k f = .success v p2) : p2 = .localL := by
  unfold switchToLocal loopLocal at h
  split at h
  · cases hc : e.call .localL k f <;> rw [hc] at h <;> simp_all
  · simp_all

theorem loopGroq_success_rank {e : Env} {k : CallKind} {f : String} {v : JVal} {p2 : ProviderC}
    (h : loopGroq e k f = .success v p2) : provRank p2 ≤ 1 := by
  unfold loopGroq at h
  cases hc : e.call .groq k f <;> rw [hc] at h
  · simp only [LoopResult.success.injEq] at h
    rw [← h.2]
    simp [provRank]
  · rw [switchToLocal_success h]
    simp [provRank]
  · rw [switchToLocal_success h]
    simp [provRank]
  · simp at h

/-! ## Claim C1 -/

/-- Claim C1 counterexample: with the full fallback chain available
(Groq key present, both fallback constructors succeeding) and the Groq tier
answering successfully, a hard-failure signal (the caught RuntimeError /
PermissionError / TimeoutError tuple) from the current Antigravity client
makes the driver call sys.exit(1) instead of switching to the next eligible
provider and retrying — refuting the claim that every quota-exhaustion or
hard-failure signal triggers demotion-and-retry. -/
theorem fallback_hard_failure_counterexample :
    fallbackLoop envHardAtTop .classify "a/x.md" .antigravity = .fatal ∧
    envHardAtTop.groqKey = true ∧
    envHardAtTop.call .groq .classify "a/x.md" = .ok (JVal.obj []) := by
  refine ⟨rfl, rfl, rfl⟩

/-- Claim C1 (amended): on a quota-exhaustion signal the driver demotes and
retries the same call — Antigravity goes to Groq when the key is present and
the constructor succeeds, any other non-local client goes to Local (exiting
when that constructor fails), and Local exits; a hard-failure signal demotes
only from Groq to Local and exits from every other client; a successful call
keeps the current client; and the loop never promotes to a higher tier. -/
theorem fallback_transition_amended (e : Env) (k : CallKind) (f : String) :
    (∀ p v, e.call p k f = .ok v → fallbackLoop e k f p = .success v p) ∧
    (e.call .antigravity k f = .quota → e.groqKey = true → e.groqInitOk = true →
      fallbackLoop e k f .antigravity = fallbackLoop e k f .groq) ∧
    (∀ p, p ≠ .localL → ¬(p = .antigravity ∧ e.groqKey = true ∧ e.groqInitOk = true) →
      e.call p k f = .quota →
      fallbackLoop e k f p = if e.localInitOk then fallbackLoop e k f .localL else .fatal) ∧
    (e.call .localL k f = .quota → fallbackLoop e k f .localL = .fatal) ∧
    (e.call .groq k f = .hardFail →
      fallbackLoop e k f .groq = if e.localInitOk then fallbackLoop e k f .localL else .fatal) ∧
    (∀ p, p ≠ .groq → e.call p k f = .hardFail → fallbackLoop e k f p = .fatal) ∧
    (∀ p v p2, fallbackLoop e k f p = .success v p2 → provRank p2 ≤ provRank p) := by
  refine ⟨?_, ?_, ?_, ?_, ?_, ?_, ?_⟩
  · intro p v h
    simp [fallbackLoop, h]
  · intro h hk hi
    simp [fallbackLoop, h, hk, hi, fallbackLoop_groq, loopGroq]
  · intro p hpl hcond hq
    rw [fallbackLoop_localL]
    simp only [fallbackLoop, hq]
    rw [if_neg hcond, if_pos hpl]
    simp [switchToLocal]
  · intro h
    simp [fallbackLoop, h]
  · intro h
    rw [fallbackLoop_groq, fallbackLoop_localL]
    simp [loopGroq, h, switchToLocal]
  · intro p hp h
    simp [fallbackLoop, h, hp]
  · intro p v p2 h
    cases hc : e.call p k f <;> simp only [fallbackLoop, hc] at h
    · simp only [LoopResult.success.injEq] at h
      rw [← h.2]
    · by_cases h1 : p = ProviderC.antigravity ∧ e.groqKey = true ∧ e.groqInitOk = true
      · rw [if_pos h1] at h
        have h3 := loopGroq_success_rank h
        rw [h1.1]
        exact le_trans h3 (by norm_num [provRank])
      · rw [if_neg h1] at h
        by_cases h2 : p = ProviderC.localL
        · rw [if_neg (by simp [h2])] at h
          simp at h
        · rw [if_pos h2] at h
          rw [switchToLocal_success h]
          simp [provRank]
    · by_cases h1 : p = ProviderC.groq
      · rw [if_pos h1] at h
        rw [switchToLocal_success h]
        simp [provRank]
      · rw [if_neg h1] at h
        simp at h
    · simp at h

/-- Claim C1 amended, witness: Antigravity signals quota exhaustion with the
Groq tier available; the loop retries the same call on Groq and succeeds
there, and the result carries the demoted client the driver keeps. -/
theorem fallback_transition_amended_witness :
    fallbackLoop envQuotaAtTop .classify "a/x.md" .antigravity =
      LoopResult.success (JVal.obj []) .groq := by
  have h := (fallback_transition_amended envQuotaAtTop .classify "a/x.md").2.1 rfl rfl rfl
  rw [h]
  rfl

/-! ## Claim C2 -/

/-- Claim C2: when the fallback chain is exhausted while processing a file —
the classify loop exits fatally, or the classify succeeded and the summary
loop exits fatally — the run ends immediately with process exit status 1 and
no subsequent file is touched: the outcome is the same for every tail of
remaining files and contains only this file's writes.  (sys.exit raises
SystemExit, which the per-file `except Exception` does not catch.) -/
theorem exhaustion_exits_one (e : Env) (p : ProviderC) (st : StateSt) (f : NoteFile)
    (rest : List NoteFile) (hns : is_processed st f.name = false) :
    (fallbackLoop e .classify f.relPath p = .fatal →
      processFiles e p st (f :: rest) = .exited 1 []) ∧
    (∀ v p1, fallbackLoop e .classify f.relPath p = .success v p1 →
      fallbackLoop e .par f.relPath p1 = .fatal →
      processFiles e p st (f :: rest) =
        .exited 1 [WriteOp.dest (classificationType (validate_classification v)) f.name]) := by
  constructor
  · intro hf
    simp [processFiles, stepFile, hns, hf]
  · intro v p1 hc hp
    simp [processFiles, stepFile, hns, hc, hp]

/-- Claim C2 witness: a run with no Groq credential, a failing local
constructor and quota exhaustion everywhere dies with exit code 1 at the
first file, leaving the second file unprocessed. -/
theorem exhaustion_exits_one_witness :
    processFiles envExhausted .antigravity [] [fileA, fileB] = .exited 1 [] := by
  exact (exhaustion_exits_one envExhausted .antigravity [] fileA [fileB] rfl).1 rfl

/-! ## Claim C3 -/

/-- Claim C3: over a state in which every listed file's record has status
"completed", a rerun of the driver performs zero writes of any kind — no
destination writes, no summary writes, no state saves — because
is_processed answers true for every file and the driver skips it; the state
and the client are returned unchanged. -/
theorem second_run_no_writes (e : Env) (p : ProviderC) (st : StateSt)
    (files : List NoteFile)
    (h : ∀ f ∈ files, ∃ r, lookupRec st f.name = some r ∧ r.status = "completed") :
    (∀ f ∈ files, is_processed st f.name = true) ∧
    processFiles e p st files = .finished [] st p := by
  have hskip : ∀ f ∈ files, is_processed st f.name = true := by
    intro f hf
    obtain ⟨r, hr, hs⟩ := h f hf
    simp [is_processed, hr, hs]
  refine ⟨hskip, ?_⟩
  induction files with
  | nil => rfl
  | cons f rest ih =>
    have hf := hskip f (by simp)
    have htail : processFiles e p st rest = .finished [] st p := by
      apply ih
      · intro g hg
        exact h g (by simp [hg])
      · intro g hg
        exact hskip g (by simp [hg])
    simp [processFiles, stepFile, hf, htail]

/-- Claim C3 witness: a one-file listing whose record is already completed
is fully skipped on the second run, with zero writes. -/
theorem second_run_no_writes_witness :
    is_processed [("x.md", FileRec.mk "completed" none)] fileA.name = true ∧
    processFiles envAllOk .antigravity [("x.md", FileRec.mk "completed" none)] [fileA] =
      .finished [] [("x.md", FileRec.mk "completed" none)] .antigravity := by
  have h := second_run_no_writes envAllOk .antigravity
    [("x.md", FileRec.mk "completed" none)] [fileA]
    (by intro f hf; simp at hf; subst hf; exact ⟨FileRec.mk "completed" none, rfl, rfl⟩)
  exact ⟨h.1 fileA (by simp), h.2⟩

/-! ## Claim C10 -/

/-- Claim C10: records are keyed by base name while the listing is
recursive, so two distinct input files with the same base name share one
record: once the earlier file (in sorted path order) completes, is_processed
answers true for the shared name, the later file is skipped without any
processing, the whole run equals the run over the first file alone, and the
single shared record, destination write and summary write are all the run
produces. -/
theorem duplicate_basename_skipped (e : Env) (p : ProviderC) (st : StateSt)
    (f1 f2 : NoteFile) (hname : f2.name = f1.name)
    (h0 : is_processed st f1.name = false)
    (v w : JVal) (p1 p2 : ProviderC)
    (hc : fallbackLoop e .classify f1.relPath p = .success v p1)
    (hp : fallbackLoop e .par f1.relPath p1 = .success w p2) :
    is_processed (mark_processed st f1.name "completed"
      (some (validate_classification v))) f2.name = true ∧
    processFiles e p st [f1, f2] = processFiles e p st [f1] ∧
    processFiles e p st [f1, f2] =
      .finished [WriteOp.dest (classificationType (validate_classification v)) f1.name,
                 WriteOp.par f1.stem, WriteOp.stateSave]
        (mark_processed st f1.name "completed" (some (validate_classification v))) p2 := by
  have hdone : is_processed (mark_processed st f1.name "completed"
      (some (validate_classification v))) f2.name = true := by
    rw [hname]
    simp [is_processed, mark_processed, lookupRec_setRec_self]
  refine ⟨hdone, ?_, ?_⟩
  · simp [processFiles, stepFile, h0, hc, hp, hdone]
  · simp [processFiles, stepFile, h0, hc, hp, hdone]

/-- Claim C10 witness: two distinct files a/x.md and b/x.md share the base
name x.md; after the first succeeds, the second is skipped and the run over
both equals the run over the first alone. -/
theorem duplicate_basename_skipped_witness :
    is_processed (mark_processed [] "x.md" "completed"
      (some (validate_classification (JVal.obj [])))) fileB.name = true ∧
    processFiles envAllOk .antigravity [] [fileA, fileB] =
      processFiles envAllOk .antigravity [] [fileA] := by
  have h := duplicate_basename_skipped envAllOk .antigravity [] fileA fileB rfl rfl
    (JVal.obj []) (JVal.obj []) .antigravity .antigravity rfl rfl
  exact ⟨h.1, h.2.1⟩

/-! ## Claim C4 -/

/-- Claim C4 counterexample: a state file whose single byte 0xFF is not
valid UTF-8 makes construction raise UnicodeDecodeError (the handler
catches only json.JSONDecodeError), refuting "never raises for any on-disk
condition"; the second conjunct certifies that the byte list really fails
UTF-8 decoding. -/
theorem state_load_nonutf8_counterexample :
    load_state (some [255]) = .error "UnicodeDecodeError" ∧
    utf8Decode [255] = none := by
  exact ⟨rfl, rfl⟩

/-- Claim C4 (amended): construction never raises when the state file is
missing or when its bytes decode as UTF-8 text that fails JSON parsing — in
both cases the loaded state is the empty state (with a warning logged in the
corrupt case) — but a state file whose bytes are not valid UTF-8 raises out
of the constructor. -/
theorem state_load_tolerant_amended (disk : Option (List Nat)) :
    (disk = none → load_state disk = .ok emptyState) ∧
    (∀ bs text, disk = some bs → utf8Decode bs = some text → jsonParse text = none →
      load_state disk = .ok emptyState) ∧
    (∀ bs, disk = some bs → utf8Decode bs = none →
      load_state disk = .error "UnicodeDecodeError") := by
  refine ⟨?_, ?_, ?_⟩
  · intro h
    subst h
    rfl
  · intro bs text hd hu hj
    subst hd
    simp [load_state, hu, hj]
  · intro bs hd hu
    subst hd
    simp [load_state, hu]

/-- Claim C4 amended, witness: a present but unparseable UTF-8 state file
(the text "corrupt") loads as the empty state. -/
theorem state_load_tolerant_amended_witness :
    load_state (some ("corrupt".toList.map Char.toNat)) = .ok emptyState := by
  exact (state_load_tolerant_amended (some ("corrupt".toList.map Char.toNat))).2.1
    ("corrupt".toList.map Char.toNat) "corrupt".toList rfl (by rfl) (by rfl)

/-! ## Claim C5 -/

/-- Claim C5: validate_classification is total (the embedding is a total
function whose branches mirror every exception handler in the source) and
for every input its result carries a type drawn from VALID_TYPES, a context
drawn from VALID_CONTEXTS, and a tags list of at most five elements, each a
string. -/
theorem validate_classification_closed_sets (d : JVal) :
    (∃ s, jget (validate_classification d) "type" = some (.str s) ∧ s ∈ VALID_TYPES) ∧
    (∃ s, jget (validate_classification d) "context" = some (.str s) ∧ s ∈ VALID_CONTEXTS) ∧
    (∃ ts, jget (validate_classification d) "tags" = some (.arr ts) ∧ ts.length ≤ 5 ∧
      ∀ t ∈ ts, ∃ s, t = JVal.str s) := by
  match d with
  | .obj fields =>
    simp only [validate_classification, jget]
    refine ⟨?_, ?_, ?_⟩
    · by_cases h : confOf (applyTagsRule (applyCtxRule (applyTypeRule fields))) <
          CONFIDENCE_THRESHOLD
      · refine ⟨"inbox", ?_, by decide⟩
        simp only [applyConfRule]
        rw [getKey_setKey_ne _ _ _ _ (by decide), if_pos h, getKey_setKey_self]
      · obtain ⟨s, hs, hmem⟩ := type_after_typeRule fields
        refine ⟨s, ?_, hmem⟩
        simp only [applyConfRule]
        rw [getKey_setKey_ne _ _ _ _ (by decide), if_neg h,
          getKey_applyTagsRule_ne _ _ (by decide), getKey_applyCtxRule_ne _ _ (by decide), hs]
    · obtain ⟨s, hs, hmem⟩ := ctx_after_ctxRule (applyTypeRule fields)
      refine ⟨s, ?_, hmem⟩
      simp only [applyConfRule]
      rw [getKey_setKey_ne _ _ _ _ (by decide)]
      split
      · rw [getKey_setKey_ne _ _ _ _ (by decide), getKey_applyTagsRule_ne _ _ (by decide), hs]
      · rw [getKey_applyTagsRule_ne _ _ (by decide), hs]
    · obtain ⟨ts, hts, hlen, hstr⟩ := tags_after_tagsRule (applyCtxRule (applyTypeRule fields))
      refine ⟨ts, ?_, hlen, hstr⟩
      simp only [applyConfRule]
      rw [getKey_setKey_ne _ _ _ _ (by decide)]
      split
      · rw [getKey_setKey_ne _ _ _ _ (by decide), hts]
      · rw [hts]
  | .null => exact ⟨⟨"inbox", rfl, by decide⟩, ⟨"practice", rfl, by decide⟩, ⟨[], rfl, by decide, by simp⟩⟩
  | .bool b => exact ⟨⟨"inbox", rfl, by decide⟩, ⟨"practice", rfl, by decide⟩, ⟨[], rfl, by decide, by simp⟩⟩
  | .num q => exact ⟨⟨"inbox", rfl, by decide⟩, ⟨"practice", rfl, by decide⟩, ⟨[], rfl, by decide, by simp⟩⟩
  | .str s => exact ⟨⟨"inbox", rfl, by decide⟩, ⟨"practice", rfl, by decide⟩, ⟨[], rfl, by decide, by simp⟩⟩
  | .arr xs => exact ⟨⟨"inbox", rfl, by decide⟩, ⟨"practice", rfl, by decide⟩, ⟨[], rfl, by decide, by simp⟩⟩

/-! ## Claim C6 -/

/-- Claim C6: whenever the coerced confidence of the input — its confidence
field parsed as a float, defaulting to 0.0 on absence or any coercion
failure — is strictly below the 0.6 threshold, the returned type is "inbox"
regardless of the type the input supplied (non-dict inputs coerce to 0.0 and
receive the inbox fallback). -/
theorem low_confidence_forces_inbox (d : JVal)
    (h : coercedConfidence d < CONFIDENCE_THRESHOLD) :
    jget (validate_classification d) "type" = some (.str "inbox") := by
  match d with
  | .obj fields =>
    simp only [validate_classification, jget]
    have h2 : confOf (applyTagsRule (applyCtxRule (applyTypeRule fields))) <
        CONFIDENCE_THRESHOLD := by
      rw [confOf_chain]
      exact h
    simp only [applyConfRule]
    rw [getKey_setKey_ne _ _ _ _ (by decide), if_pos h2, getKey_setKey_self]
  | .null | .bool _ | .num _ | .str _ | .arr _ => rfl

/-- Claim C6 witness: a mapping that supplies type "reference" with
confidence 0.3 comes back retyped as "inbox". -/
theorem low_confidence_forces_inbox_witness :
    coercedConfidence (JVal.obj [("type", .str "reference"), ("confidence", .num (mkRat 3 10))]) <
      CONFIDENCE_THRESHOLD ∧
    jget (validate_classification
        (JVal.obj [("type", .str "reference"), ("confidence", .num (mkRat 3 10))])) "type" =
      some (.str "inbox") := by
  refine ⟨by decide, ?_⟩
  exact low_confidence_forces_inbox _ (by decide)

/-! ## Claim C8 -/

theorem call_api_non200 (status : Nat) (body : String) (h : status ≠ 200) :
    call_api (.resp status body) = .ok "\x7b\x7d" := by
  by_cases h401 : status = 401
  · simp [call_api, call_api_try, h401]
  · simp [call_api, call_api_try, h401, h]

/-- Claim C8 counterexample: a persistent non-2xx transport response
(status 500) during the token-brokered provider's classify call is not
raised to the orchestrator: _call_api returns the literal "\x7b\x7d" and
classify_note turns it into the empty dict — the hard failure is swallowed
and converted into exactly the empty-shaped result the claim rules out. -/
theorem hard_failure_swallowed_counterexample :
    call_api (.resp 500 "Internal Server Error") = .ok "\x7b\x7d" ∧
    antigravity_classify_note (.resp 500 "Internal Server Error") = .ok (JVal.obj []) := by
  exact ⟨rfl, rfl⟩

/-- Claim C8 (amended): hard provider failures are swallowed, not raised.
AntigravityLLM._call_api never lets an exception escape (its own handler
catches even the PermissionError its 401 branch raises): every non-200
response and every transport exception yields the literal "\x7b\x7d", and
classify/extract then return the empty-shaped results.  ProductionLLM's
_call_llm likewise converts a non-429 API error or any other exception into
"\x7b\x7d". -/
theorem hard_failure_swallowed_amended :
    (∀ r, ∃ s, call_api r = .ok s) ∧
    (∀ status body, status ≠ 200 → call_api (.resp status body) = .ok "\x7b\x7d") ∧
    (call_api .exc = .ok "\x7b\x7d") ∧
    (∀ status body, status ≠ 200 →
      antigravity_classify_note (.resp status body) = .ok (JVal.obj [])) ∧
    (∀ status body, status ≠ 200 →
      antigravity_extract_par (.resp status body) = .ok (JVal.obj [])) ∧
    (∀ att s, att 0 = Attempt.apiError s → s ≠ 429 → call_llm att = .ok "\x7b\x7d") ∧
    (∀ att, att 0 = Attempt.otherExc → call_llm att = .ok "\x7b\x7d") := by
  refine ⟨?_, call_api_non200, rfl, ?_, ?_, ?_, ?_⟩
  · intro r
    cases h : call_api_try r with
    | ok s => exact ⟨s, by simp [call_api, h]⟩
    | error e => exact ⟨"\x7b\x7d", by simp [call_api, h]⟩
  · intro status body h
    unfold antigravity_classify_note
    rw [call_api_non200 status body h]
    rfl
  · intro status body h
    unfold antigravity_extract_par
    rw [call_api_non200 status body h]
    rfl
  · intro att s h h429
    unfold call_llm call_llm_from
    rw [h]
    simp [h429]
  · intro att h
    unfold call_llm call_llm_from
    rw [h]

/-- Claim C8 amended, witness: a 503 response is swallowed into the empty
dict by classify and the empty summary-shaped parse by extract, and a
production-side 500 API error returns the empty JSON text. -/
theorem hard_failure_swallowed_amended_witness :
    antigravity_classify_note (.resp 503 "overloaded") = .ok (JVal.obj []) ∧
    call_llm (fun _ => Attempt.apiError 500) = .ok "\x7b\x7d" := by
  have h := hard_failure_swallowed_amended
  exact ⟨h.2.2.2.1 503 "overloaded" (by decide),
    h.2.2.2.2.2.1 (fun _ => Attempt.apiError 500) 500 rfl (by decide)⟩

/-! ## Claim C9 -/

/-- Claim C9 counterexample: validate_classification mutates its argument:
after the call on the mapping with type "reference" and confidence 1, the
caller's mapping has acquired context, tags and a rewritten confidence — it
is observably different from its pre-call value, refuting the claim that the
argument is unchanged for every input. -/
theorem validate_mutates_argument_counterexample :
    validate_argument_after (JVal.obj [("type", JVal.str "reference"), ("confidence", JVal.num 1)])
      ≠ JVal.obj [("type", JVal.str "reference"), ("confidence", JVal.num 1)] := by
  intro h
  have hL : (jget (validate_argument_after
      (JVal.obj [("type", JVal.str "reference"), ("confidence", JVal.num 1)])) "tags").isSome
      = true := by decide
  rw [h] at hL
  exact absurd hL (by decide)

/-- Claim C9 (amended): validate_classification is not argument-preserving:
for every mapping input the corrections are performed by item assignment on
the caller's dict and that same dict is returned, so the post-call argument
equals the returned mapping; and there are inputs the call observably
changes.  Only a non-mapping argument is left untouched (the fallback is a
fresh dict). -/
theorem validate_in_place_amended :
    (∀ fields : List (String × JVal),
      validate_argument_after (JVal.obj fields) = validate_classification (JVal.obj fields)) ∧
    (∀ d : JVal, (∀ fields, d ≠ JVal.obj fields) → validate_argument_after d = d) ∧
    (∃ d : JVal, validate_argument_after d ≠ d) := by
  refine ⟨fun fields => rfl, ?_, ?_⟩
  · intro d hd
    match d with
    | .obj fields => exact absurd rfl (hd fields)
    | .null | .bool _ | .num _ | .str _ | .arr _ => rfl
  · refine ⟨JVal.obj [], ?_⟩
    intro h
    have hL : (jget (validate_argument_after (JVal.obj [])) "type").isSome = true := by decide
    rw [h] at hL
    exact absurd hL (by decide)

/-! ## Lemmas: stripping -/

theorem dropWhile_head_not {p : Char → Bool} {l : List Char} :
    ∀ x ∈ (l.dropWhile p).head?, p x = false := by
  induction l with
  | nil => simp
  | cons c rest ih =>
    by_cases h : p c
    · simpa [List.dropWhile_cons, h] using ih
    · simp [List.dropWhile_cons, h]

theorem pyStripL_noEdgeWs (l : List Char) : noEdgeWs (pyStripL l) := by
  constructor
  · intro x hx
    -- pyStripL l is a prefix of l.dropWhile isPyWs, so their heads agree.
    have hsplit : pyStripL l ++ ((l.dropWhile isPyWs).reverse.takeWhile isPyWs).reverse
        = l.dropWhile isPyWs := by
      unfold pyStripL
      rw [← List.reverse_append, List.takeWhile_append_dropWhile isPyWs, List.reverse_reverse]
    have hhead : (l.dropWhile isPyWs).head? = some x := by
      rw [← hsplit]
      cases hp : pyStripL l with
      | nil => rw [hp] at hx; simp at hx
      | cons a t =>
        rw [hp] at hx
        simp at hx
        simp [hx]
    exact dropWhile_head_not x hhead
  · intro x hx
    have hrev : (pyStripL l).reverse = (l.dropWhile isPyWs).reverse.dropWhile isPyWs := by
      unfold pyStripL
      rw [List.reverse_reverse]
    have hx2 : ∀ y ∈ ((l.dropWhile isPyWs).reverse.dropWhile isPyWs).head?, isPyWs y = false :=
      dropWhile_head_not
    apply hx2
    rw [← hrev, List.head?_reverse]
    exact hx

theorem jsonSkipWs_eq_self {l : List Char} (h : ∀ x ∈ l.head?, isPyWs x = false) :
    jsonSkipWs l = l := by
  cases l with
  | nil => rfl
  | cons c rest =>
    have hc : isPyWs c = false := h c (by simp)
    have hj : isJsonWs c = false := by
      cases hj : isJsonWs c
      · rfl
      · exact absurd (isJsonWs_isPyWs hj) (by simp [hc])
    simp [jsonSkipWs, List.dropWhile_cons, hj]

theorem stripLangTag_noEdgeWs (m : List Char) : noEdgeWs (stripLangTag m) := by
  unfold stripLangTag
  simp only []
  split
  · exact pyStripL_noEdgeWs m
  · split
    · split
      · exact pyStripL_noEdgeWs _
      · exact pyStripL_noEdgeWs m
    · exact pyStripL_noEdgeWs m

/-! ## Lemmas: parser remainders are suffixes of their inputs -/

theorem dropLit_suffix : ∀ (es l r : List Char), dropLit es l = some r → r <:+ l := by
  intro es
  induction es with
  | nil =>
    intro l r h
    simp [dropLit] at h
    rw [← h]
  | cons e es ih =>
    intro l r h
    match l with
    | [] => simp [dropLit] at h
    | c :: l2 =>
      simp only [dropLit] at h
      split at h
      · exact (ih l2 r h).trans (List.suffix_cons c l2)
      · simp at h

theorem parseJString_cons (c : Char) (rest : List Char) :
    parseJString (c :: rest) =
      (if c = '"' then some ([], rest)
       else if c = '\\' then
         match rest with
         | [] => none
         | e :: rest2 =>
           if e = 'u' then
             match rest2 with
             | h1 :: h2 :: h3 :: h4 :: rest3 =>
               match hexVal h1, hexVal h2, hexVal h3, hexVal h4 with
               | some a, some b, some c3, some d =>
                 match parseJString rest3 with
                 | some (s, r) => some (Char.ofNat (((a * 16 + b) * 16 + c3) * 16 + d) :: s, r)
                 | none => none
               | _, _, _, _ => none
             | _ => none
           else
             match escChar e with
             | some ch =>
               match parseJString rest2 with
               | some (s, r) => some (ch :: s, r)
               | none => none
             | none => none
       else if c.toNat < 32 then none
       else
         match parseJString rest with
         | some (s, r) => some (c :: s, r)
         | none => none) := by
  rw [parseJString.eq_def]

theorem parseJString_suffix : ∀ (l s r : List Char), parseJString l = some (s, r) → r <:+ l := by
  suffices H : ∀ (n : Nat) (l s r : List Char), l.length ≤ n →
      parseJString l = some (s, r) → r <:+ l by
    intro l s r h
    exact H l.length l s r le_rfl h
  intro n
  induction n with
  | zero =>
    intro l s r hlen h
    match l with
    | [] => simp [parseJString] at h
    | c :: rest =>
      simp only [List.length_cons] at hlen
      omega
  | succ n ih =>
    intro l s r hlen h
    match l with
    | [] => simp [parseJString] at h
    | c :: rest =>
      rw [parseJString_cons] at h
      split_ifs at h with h1 h2 h3
      · simp only [Option.some.injEq, Prod.mk.injEq] at h
        obtain ⟨-, h4⟩ := h
        subst h4
        exact List.suffix_cons c rest
      · -- escape branch
        split at h
        · simp at h
        · rename_i e rest2
          split_ifs at h with hu
          · -- unicode escape
            split at h
            · rename_i h1c h2c h3c h4c rest3
              split at h
              · split at h
                · rename_i s0 r0 hrec
                  simp only [Option.some.injEq, Prod.mk.injEq] at h
                  obtain ⟨-, h4⟩ := h
                  subst h4
                  have hr3 : rest3.length ≤ n := by
                    simp only [List.length_cons] at hlen
                    omega
                  have hsub := ih rest3 s0 r0 hr3 hrec
                  refine hsub.trans ?_
                  refine (List.suffix_cons h4c rest3).trans ?_
                  refine (List.suffix_cons h3c _).trans ?_
                  refine (List.suffix_cons h2c _).trans ?_
                  refine (List.suffix_cons h1c _).trans ?_
                  exact (List.suffix_cons e _).trans (List.suffix_cons c _)
                · simp at h
              · simp at h
            · simp at h
          · -- single-character escape
            split at h
            · split at h
              · rename_i ch hesc s0 r0 hrec
                simp only [Option.some.injEq, Prod.mk.injEq] at h
                obtain ⟨-, h4⟩ := h
                subst h4
                have hr2 : rest2.length ≤ n := by
                  simp only [List.length_cons] at hlen
                  omega
                have hsub := ih rest2 s0 r0 hr2 hrec
                exact (hsub.trans (List.suffix_cons e rest2)).trans (List.suffix_cons c _)
              · simp at h
            · simp at h
      all_goals split at h
      all_goals try (exact Option.noConfusion h)
      all_goals
        rename_i s0 r0 hrec
        simp only [Option.some.injEq, Prod.mk.injEq] at h
        obtain ⟨-, h4⟩ := h
        subst h4
        have hr : rest.length ≤ n := by
          simp only [List.length_cons] at hlen
          omega
        exact (ih rest s0 r0 hr hrec).trans (List.suffix_cons c rest)

theorem expSign_suffix (l : List Char) : (expSign l).2 <:+ l := by
  match l with
  | [] => exact List.suffix_refl []
  | c2 :: r3 =>
    simp only [expSign]
    split_ifs
    · exact List.suffix_cons c2 r3
    · exact List.suffix_cons c2 r3
    · exact List.suffix_refl _

theorem parseExpPart_suffix (l : List Char) (e : ℤ) (r : List Char)
    (h : parseExpPart l = some (e, r)) : r <:+ l := by
  match l with
  | [] =>
    simp only [parseExpPart, Option.some.injEq, Prod.mk.injEq] at h
    obtain ⟨-, h2⟩ := h
    subst h2
    exact List.suffix_refl _
  | c :: rr =>
    simp only [parseExpPart] at h
    split_ifs at h with he hemp
    all_goals
      simp only [Option.some.injEq, Prod.mk.injEq] at h
      obtain ⟨-, h2⟩ := h
      subst h2
      first
        | exact List.suffix_refl _
        | (show List.dropWhile isDigitC (expSign rr).2 <:+ c :: rr
           exact ((List.dropWhile_suffix isDigitC).trans (expSign_suffix rr)).trans
             (List.suffix_cons c rr))

theorem finishNumber_suffix (neg : Bool) (intDs fracDs l3 : List Char) (q : ℚ)
    (r : List Char) (h : finishNumber neg intDs fracDs l3 = some (q, r)) : r <:+ l3 := by
  unfold finishNumber at h
  simp only [] at h
  split at h
  · simp at h
  · rename_i e l4 heq
    simp only [Option.some.injEq, Prod.mk.injEq] at h
    rw [← h.2]
    exact parseExpPart_suffix l3 e l4 heq

theorem numSign_suffix (l : List Char) : (numSign l).2 <:+ l := by
  match l with
  | [] => exact List.suffix_refl []
  | c :: r =>
    simp only [numSign]
    split_ifs
    · exact List.suffix_cons c r
    · exact List.suffix_refl _

theorem parseNumber_suffix (l : List Char) (q : ℚ) (r : List Char)
    (h : parseNumber l = some (q, r)) : r <:+ l := by
  unfold parseNumber at h
  split at h
  · exact Option.noConfusion h
  · rename_i d ds l2 heq
    have hl2 : l2 <:+ l := by
      have h2 : l2 = ((numSign l).2).dropWhile isDigitC := by
        have := congrArg Prod.snd heq
        simpa [takeDigits] using this.symm
      rw [h2]
      exact (List.dropWhile_suffix isDigitC).trans (numSign_suffix l)
    split_ifs at h with hz
    split at h
    · rename_i c r2
      split_ifs at h with hdot hemp
      all_goals have hs := finishNumber_suffix _ _ _ _ _ _ h
      all_goals first
        | exact hs.trans hl2
        | exact hs.trans (((List.dropWhile_suffix isDigitC).trans
            (List.suffix_cons c r2)).trans hl2)
    · have hs := finishNumber_suffix _ _ _ _ _ _ h
      have h0 : r <:+ ([] : List Char) := hs
      rw [List.suffix_nil.mp h0]
      exact List.nil_suffix

theorem jsonSkipWs_suffix (l : List Char) : jsonSkipWs l <:+ l :=
  List.dropWhile_suffix isJsonWs

theorem parser_suffix : ∀ fu : Nat,
    (∀ l v r, parseVal fu l = some (v, r) → r <:+ l) ∧
    (∀ l acc fs r, parseMembers fu l acc = some (fs, r) → r <:+ l) ∧
    (∀ l acc vs r, parseElems fu l acc = some (vs, r) → r <:+ l) := by
  intro fu
  induction fu with
  | zero =>
    refine ⟨?_, ?_, ?_⟩ <;> intro l
    · intro v r h
      exact Option.noConfusion h
    · intro acc fs r h
      exact Option.noConfusion h
    · intro acc vs r h
      exact Option.noConfusion h
  | succ fu ih =>
    obtain ⟨ihV, ihM, ihE⟩ := ih
    refine ⟨?_, ?_, ?_⟩
    · -- parseVal
      intro l v r h
      simp only [parseVal] at h
      split at h
      · exact Option.noConfusion h
      · rename_i c rest
        split_ifs at h with h1 h2 h3 h4 h5 h6 h7 h8 h9
        · -- object
          split at h
          · exact Option.noConfusion h
          · rename_i d r2 heq
            have hd : (d :: r2) <:+ (c :: rest) := by
              rw [← heq]
              exact (jsonSkipWs_suffix rest).trans (List.suffix_cons c rest)
            split_ifs at h with hdd
            · simp only [Option.some.injEq, Prod.mk.injEq] at h
              obtain ⟨-, h0⟩ := h
              subst h0
              exact (List.suffix_cons d r2).trans hd
            · split at h
              · rename_i fs0 r0 hm
                simp only [Option.some.injEq, Prod.mk.injEq] at h
                obtain ⟨-, h0⟩ := h
                subst h0
                exact (ihM _ _ _ _ hm).trans hd
              · exact Option.noConfusion h
        · -- array
          split at h
          · exact Option.noConfusion h
          · rename_i d r2 heq
            have hd : (d :: r2) <:+ (c :: rest) := by
              rw [← heq]
              exact (jsonSkipWs_suffix rest).trans (List.suffix_cons c rest)
            split_ifs at h with hdd
            · simp only [Option.some.injEq, Prod.mk.injEq] at h
              obtain ⟨-, h0⟩ := h
              subst h0
              exact (List.suffix_cons d r2).trans hd
            · split at h
              · rename_i vs0 r0 hm
                simp only [Option.some.injEq, Prod.mk.injEq] at h
                obtain ⟨-, h0⟩ := h
                subst h0
                exact (ihE _ _ _ _ hm).trans hd
              · exact Option.noConfusion h
        · -- string
          split at h
          · rename_i s0 r0 hrec
            simp only [Option.some.injEq, Prod.mk.injEq] at h
            obtain ⟨-, h0⟩ := h
            subst h0
            exact (parseJString_suffix rest s0 r0 hrec).trans (List.suffix_cons c rest)
          · exact Option.noConfusion h
        · -- true
          split at h
          · rename_i r0 hdrop
            simp only [Option.some.injEq, Prod.mk.injEq] at h
            obtain ⟨-, h0⟩ := h
            subst h0
            exact (dropLit_suffix _ rest r0 hdrop).trans (List.suffix_cons c rest)
          · exact Option.noConfusion h
        · -- false
          split at h
          · rename_i r0 hdrop
            simp only [Option.some.injEq, Prod.mk.injEq] at h
            obtain ⟨-, h0⟩ := h
            subst h0
            exact (dropLit_suffix _ rest r0 hdrop).trans (List.suffix_cons c rest)
          · exact Option.noConfusion h
        · -- null
          split at h
          · rename_i r0 hdrop
            simp only [Option.some.injEq, Prod.mk.injEq] at h
            obtain ⟨-, h0⟩ := h
            subst h0
            exact (dropLit_suffix _ rest r0 hdrop).trans (List.suffix_cons c rest)
          · exact Option.noConfusion h
        · -- NaN
          split at h
          · rename_i r0 hdrop
            simp only [Option.some.injEq, Prod.mk.injEq] at h
            obtain ⟨-, h0⟩ := h
            subst h0
            exact (dropLit_suffix _ rest r0 hdrop).trans (List.suffix_cons c rest)
          · exact Option.noConfusion h
        · -- Infinity
          split at h
          · rename_i r0 hdrop
            simp only [Option.some.injEq, Prod.mk.injEq] at h
            obtain ⟨-, h0⟩ := h
            subst h0
            exact (dropLit_suffix _ rest r0 hdrop).trans (List.suffix_cons c rest)
          · exact Option.noConfusion h
        · -- -Infinity
          split at h
          · rename_i r0 hdrop
            simp only [Option.some.injEq, Prod.mk.injEq] at h
            obtain ⟨-, h0⟩ := h
            subst h0
            exact (dropLit_suffix _ rest r0 hdrop).trans (List.suffix_cons c rest)
          · exact Option.noConfusion h
        · -- number
          split at h
          · rename_i q0 r0 hnum
            simp only [Option.some.injEq, Prod.mk.injEq] at h
            obtain ⟨-, h0⟩ := h
            subst h0
            exact parseNumber_suffix _ q0 r0 hnum
          · exact Option.noConfusion h
    · -- parseMembers
      intro l acc fs r h
      simp only [parseMembers] at h
      split at h
      · rename_i c rest
        split_ifs at h with h1
        split at h
        · rename_i ks r1 hstr
          have hr1 : r1 <:+ (c :: rest) :=
            (parseJString_suffix rest ks r1 hstr).trans (List.suffix_cons c rest)
          split at h
          · rename_i r2 heq2
            have hr2 : r2 <:+ (c :: rest) := by
              have : (':' :: r2) <:+ r1 := by
                rw [← heq2]
                exact jsonSkipWs_suffix r1
              exact ((List.suffix_cons ':' r2).trans this).trans hr1
            split at h
            · rename_i v0 r3 hval
              have hr3 : r3 <:+ (c :: rest) :=
                ((ihV _ _ _ hval).trans (jsonSkipWs_suffix r2)).trans hr2
              split at h
              · rename_i d r4 heq4
                have hr4 : r4 <:+ (c :: rest) := by
                  have : (d :: r4) <:+ r3 := by
                    rw [← heq4]
                    exact jsonSkipWs_suffix r3
                  exact ((List.suffix_cons d r4).trans this).trans hr3
                split_ifs at h with hc hd
                · exact (ihM _ _ _ _ h).trans ((jsonSkipWs_suffix r4).trans hr4)
                · simp only [Option.some.injEq, Prod.mk.injEq] at h
                  obtain ⟨-, h0⟩ := h
                  subst h0
                  exact hr4
              · exact Option.noConfusion h
            · exact Option.noConfusion h
          · exact Option.noConfusion h
        · exact Option.noConfusion h
      · exact Option.noConfusion h
    · -- parseElems
      intro l acc vs r h
      simp only [parseElems] at h
      split at h
      · rename_i v0 r1 hval
        have hr1 : r1 <:+ l := ihV _ _ _ hval
        split at h
        · rename_i d r2 heq2
          have hr2 : r2 <:+ l := by
            have : (d :: r2) <:+ r1 := by
              rw [← heq2]
              exact jsonSkipWs_suffix r1
            exact ((List.suffix_cons d r2).trans this).trans hr1
          split_ifs at h with hc hd
          · exact (ihE _ _ _ _ h).trans ((jsonSkipWs_suffix r2).trans hr2)
          · simp only [Option.some.injEq, Prod.mk.injEq] at h
            obtain ⟨-, h0⟩ := h
            subst h0
            exact hr2
        · exact Option.noConfusion h
      · exact Option.noConfusion h

theorem parseMembers_close : ∀ (fu : Nat) (l : List Char) (acc fs : List (String × JVal))
    (r : List Char), parseMembers fu l acc = some (fs, r) → (rbrace :: r) <:+ l := by
  intro fu
  induction fu with
  | zero =>
    intro l acc fs r h
    exact Option.noConfusion h
  | succ fu ih =>
    intro l acc fs r h
    simp only [parseMembers] at h
    split at h
    · rename_i c rest
      split_ifs at h with h1
      split at h
      · rename_i ks r1 hstr
        have hr1 : r1 <:+ (c :: rest) :=
          (parseJString_suffix rest ks r1 hstr).trans (List.suffix_cons c rest)
        split at h
        · rename_i r2 heq2
          have hr2 : r2 <:+ (c :: rest) := by
            have hcolon : (':' :: r2) <:+ r1 := by
              rw [← heq2]
              exact jsonSkipWs_suffix r1
            exact ((List.suffix_cons ':' r2).trans hcolon).trans hr1
          split at h
          · rename_i v0 r3 hval
            have hr3 : r3 <:+ (c :: rest) :=
              (((parser_suffix fu).1 _ _ _ hval).trans (jsonSkipWs_suffix r2)).trans hr2
            split at h
            · rename_i d r4 heq4
              have hr4x : (d :: r4) <:+ (c :: rest) := by
                have hdr : (d :: r4) <:+ r3 := by
                  rw [← heq4]
                  exact jsonSkipWs_suffix r3
                exact hdr.trans hr3
              split_ifs at h with hc hd
              · exact (ih _ _ _ _ h).trans
                  ((jsonSkipWs_suffix r4).trans
                    ((List.suffix_cons d r4).trans hr4x))
              · simp only [Option.some.injEq, Prod.mk.injEq] at h
                obtain ⟨-, h0⟩ := h
                subst h0
                rw [← hd]
                exact hr4x
            · exact Option.noConfusion h
          · exact Option.noConfusion h
        · exact Option.noConfusion h
      · exact Option.noConfusion h
    · exact Option.noConfusion h

theorem parseElems_close : ∀ (fu : Nat) (l : List Char) (acc vs : List JVal)
    (r : List Char), parseElems fu l acc = some (vs, r) → (']' :: r) <:+ l := by
  intro fu
  induction fu with
  | zero =>
    intro l acc vs r h
    exact Option.noConfusion h
  | succ fu ih =>
    intro l acc vs r h
    simp only [parseElems] at h
    split at h
    · rename_i v0 r1 hval
      have hr1 : r1 <:+ l := (parser_suffix fu).1 _ _ _ hval
      split at h
      · rename_i d r2 heq2
        have hr2x : (d :: r2) <:+ l := by
          have hdr : (d :: r2) <:+ r1 := by
            rw [← heq2]
            exact jsonSkipWs_suffix r1
          exact hdr.trans hr1
        split_ifs at h with hc hd
        · exact (ih _ _ _ _ h).trans
            ((jsonSkipWs_suffix r2).trans ((List.suffix_cons d r2).trans hr2x))
        · simp only [Option.some.injEq, Prod.mk.injEq] at h
          obtain ⟨-, h0⟩ := h
          subst h0
          rw [← hd]
          exact hr2x
      · exact Option.noConfusion h
    · exact Option.noConfusion h

theorem parseVal_obj_shape (fu : Nat) (l : List Char) (m : List (String × JVal))
    (r : List Char) (h : parseVal fu l = some (JVal.obj m, r)) :
    l.head? = some lbrace ∧ (rbrace :: r) <:+ l := by
  match fu with
  | 0 => exact Option.noConfusion h
  | Nat.succ fu =>
    simp only [parseVal] at h
    split at h
    · exact Option.noConfusion h
    · rename_i c rest
      split_ifs at h with h1 h2 h3 h4 h5 h6 h7 h8 h9
      · refine ⟨by simp [h1], ?_⟩
        split at h
        · exact Option.noConfusion h
        · rename_i d r2 heq
          have hd : (d :: r2) <:+ (c :: rest) := by
            rw [← heq]
            exact (jsonSkipWs_suffix rest).trans (List.suffix_cons c rest)
          split_ifs at h with hdd
          · simp only [Option.some.injEq, Prod.mk.injEq, JVal.obj.injEq] at h
            obtain ⟨-, h0⟩ := h
            subst h0
            rw [← hdd]
            exact hd
          · split at h
            · rename_i fs0 r0 hm
              simp only [Option.some.injEq, Prod.mk.injEq, JVal.obj.injEq] at h
              obtain ⟨-, h0⟩ := h
              subst h0
              exact (parseMembers_close fu _ _ _ _ hm).trans hd
            · exact Option.noConfusion h
      · -- array branch cannot yield an object
        split at h
        · exact Option.noConfusion h
        · split_ifs at h
          · simp at h
          · split at h
            · simp at h
            · exact Option.noConfusion h
      all_goals repeat (first | exact Option.noConfusion h | split at h)
      all_goals simp at h

theorem parseVal_arr_shape (fu : Nat) (l : List Char) (m : List JVal)
    (r : List Char) (h : parseVal fu l = some (JVal.arr m, r)) :
    l.head? = some '[' ∧ (']' :: r) <:+ l := by
  match fu with
  | 0 => exact Option.noConfusion h
  | Nat.succ fu =>
    simp only [parseVal] at h
    split at h
    · exact Option.noConfusion h
    · rename_i c rest
      split_ifs at h with h1 h2 h3 h4 h5 h6 h7 h8 h9
      · -- object branch cannot yield an array
        split at h
        · exact Option.noConfusion h
        · rename_i d r2 heq
          split_ifs at h
          · simp at h
          · split at h
            · simp at h
            · exact Option.noConfusion h
      · refine ⟨by simp [h2], ?_⟩
        split at h
        · exact Option.noConfusion h
        · rename_i d r2 heq
          have hd : (d :: r2) <:+ (c :: rest) := by
            rw [← heq]
            exact (jsonSkipWs_suffix rest).trans (List.suffix_cons c rest)
          split_ifs at h with hdd
          · simp only [Option.some.injEq, Prod.mk.injEq, JVal.arr.injEq] at h
            obtain ⟨-, h0⟩ := h
            subst h0
            rw [← hdd]
            exact hd
          · split at h
            · rename_i vs0 r0 hm
              simp only [Option.some.injEq, Prod.mk.injEq, JVal.arr.injEq] at h
              obtain ⟨-, h0⟩ := h
              subst h0
              exact (parseElems_close fu _ _ _ _ hm).trans hd
            · exact Option.noConfusion h
      all_goals repeat (first | exact Option.noConfusion h | split at h)
      all_goals simp at h

theorem parseVal_head_lbrace (fu : Nat) (rest : List Char) (v : JVal) (r : List Char)
    (h : parseVal fu (lbrace :: rest) = some (v, r)) :
    ∃ m, v = JVal.obj m := by
  match fu with
  | 0 => exact Option.noConfusion h
  | Nat.succ fu =>
    simp only [parseVal] at h
    rw [if_pos trivial] at h
    split at h
    · exact Option.noConfusion h
    · split_ifs at h
      · simp only [Option.some.injEq, Prod.mk.injEq] at h
        exact ⟨[], h.1.symm⟩
      · split at h
        · rename_i fs0 r0 hm
          simp only [Option.some.injEq, Prod.mk.injEq] at h
          exact ⟨fs0, h.1.symm⟩
        · exact Option.noConfusion h

theorem parseVal_head_lbracket (fu : Nat) (rest : List Char) (v : JVal) (r : List Char)
    (h : parseVal fu ('[' :: rest) = some (v, r)) :
    ∃ m, v = JVal.arr m := by
  match fu with
  | 0 => exact Option.noConfusion h
  | Nat.succ fu =>
    simp only [parseVal] at h
    rw [if_neg (by decide : ¬(('[' : Char) = lbrace))] at h
    rw [if_pos trivial] at h
    split at h
    · exact Option.noConfusion h
    · split_ifs at h
      · simp only [Option.some.injEq, Prod.mk.injEq] at h
        exact ⟨[], h.1.symm⟩
      · split at h
        · rename_i vs0 r0 hm
          simp only [Option.some.injEq, Prod.mk.injEq] at h
          exact ⟨vs0, h.1.symm⟩
        · exact Option.noConfusion h

theorem headIs_iff {l : List Char} {ch : Char} : headIs l ch = true ↔ l.head? = some ch := by
  cases l <;> simp [headIs]

theorem lastIs_iff {l : List Char} {ch : Char} : lastIs l ch = true ↔ l.getLast? = some ch := by
  unfold lastIs
  cases h : l.getLast? <;> simp

theorem getLast?_mem_list {l : List Char} {y : Char} (h : l.getLast? = some y) : y ∈ l := by
  have h2 : y ∈ l.getLast? := by
    rw [h]
    rfl
  obtain ⟨hne, hy⟩ := List.mem_getLast?_eq_getLast h2
  rw [hy]
  exact List.getLast_mem hne

/-- A suffix consisting of JSON whitespace after the final closing character
must be empty when the whole list has no trailing Python whitespace. -/
theorem trailing_ws_nil {c r : List Char} {close : Char}
    (hsuf : (close :: r) <:+ c) (htr : jsonSkipWs r = [])
    (hlast : ∀ x ∈ c.getLast?, isPyWs x = false) : r = [] := by
  cases hr : r with
  | nil => rfl
  | cons x xs =>
    exfalso
    obtain ⟨pre, hpre⟩ := hsuf
    have hallws : ∀ y ∈ r, isJsonWs y = true := by
      intro y hy
      exact List.dropWhile_eq_nil_iff.mp htr y hy
    have hlastc : c.getLast? = r.getLast? := by
      rw [← hpre, List.getLast?_append_of_ne_nil pre (by simp [hr]), hr,
        List.getLast?_cons_cons, ← hr]
    have hsome : ∃ y, r.getLast? = some y := by
      rw [hr]
      cases hx : (x :: xs).getLast? with
      | some y => exact ⟨y, rfl⟩
      | none => exact absurd hx (by simp)
    obtain ⟨y, hy⟩ := hsome
    have hymem : y ∈ r := getLast?_mem_list hy
    have hws : isPyWs y = true := isJsonWs_isPyWs (hallws y hymem)
    have := hlast y (by rw [hlastc, hy]; rfl)
    rw [this] at hws
    exact Bool.noConfusion hws

/-- For text with no edge whitespace, jsonParse returning an object forces
an opening brace first and a closing brace last. -/
theorem jsonParse_obj_delims {c : List Char} (hc : noEdgeWs c) {m : List (String × JVal)}
    (h : jsonParse c = some (JVal.obj m)) :
    headIs c lbrace = true ∧ lastIs c rbrace = true := by
  unfold jsonParse at h
  rw [jsonSkipWs_eq_self hc.1] at h
  split at h
  · rename_i v r hp
    split_ifs at h with htr
    · simp only [Option.some.injEq] at h
      subst h
      obtain ⟨hhead, hsuf⟩ := parseVal_obj_shape _ _ _ _ hp
      have hr : r = [] := trailing_ws_nil hsuf htr hc.2
      subst hr
      obtain ⟨pre, hpre⟩ := hsuf
      refine ⟨headIs_iff.mpr hhead, lastIs_iff.mpr ?_⟩
      rw [← hpre]
      exact List.getLast?_concat pre
  · exact Option.noConfusion h

/-- The array version of jsonParse_obj_delims. -/
theorem jsonParse_arr_delims {c : List Char} (hc : noEdgeWs c) {m : List JVal}
    (h : jsonParse c = some (JVal.arr m)) :
    headIs c '[' = true ∧ lastIs c ']' = true := by
  unfold jsonParse at h
  rw [jsonSkipWs_eq_self hc.1] at h
  split at h
  · rename_i v r hp
    split_ifs at h with htr
    · simp only [Option.some.injEq] at h
      subst h
      obtain ⟨hhead, hsuf⟩ := parseVal_arr_shape _ _ _ _ hp
      have hr : r = [] := trailing_ws_nil hsuf htr hc.2
      subst hr
      obtain ⟨pre, hpre⟩ := hsuf
      refine ⟨headIs_iff.mpr hhead, lastIs_iff.mpr ?_⟩
      rw [← hpre]
      exact List.getLast?_concat pre
  · exact Option.noConfusion h

/-- For text with no edge whitespace opening with a brace, a successful
jsonParse yields an object. -/
theorem jsonParse_lbrace_obj {c : List Char} (hc : noEdgeWs c)
    (hh : headIs c lbrace = true) {v : JVal} (h : jsonParse c = some v) :
    ∃ m, v = JVal.obj m := by
  unfold jsonParse at h
  rw [jsonSkipWs_eq_self hc.1] at h
  obtain ⟨rest, hrest⟩ : ∃ rest, c = lbrace :: rest := by
    cases c with
    | nil => exact absurd hh (by simp [headIs])
    | cons a t =>
      rw [headIs_iff] at hh
      simp only [List.head?_cons, Option.some.injEq] at hh
      exact ⟨t, by rw [hh]⟩
  subst hrest
  split at h
  · rename_i v0 r hp
    split_ifs at h with htr
    · simp only [Option.some.injEq] at h
      subst h
      exact parseVal_head_lbrace _ _ _ _ hp
  · exact Option.noConfusion h

/-- The bracket version of jsonParse_lbrace_obj. -/
theorem jsonParse_lbracket_arr {c : List Char} (hc : noEdgeWs c)
    (hh : headIs c '[' = true) {v : JVal} (h : jsonParse c = some v) :
    ∃ m, v = JVal.arr m := by
  unfold jsonParse at h
  rw [jsonSkipWs_eq_self hc.1] at h
  obtain ⟨rest, hrest⟩ : ∃ rest, c = '[' :: rest := by
    cases c with
    | nil => exact absurd hh (by simp [headIs])
    | cons a t =>
      rw [headIs_iff] at hh
      simp only [List.head?_cons, Option.some.injEq] at hh
      exact ⟨t, by rw [hh]⟩
  subst hrest
  split at h
  · rename_i v0 r hp
    split_ifs at h with htr
    · simp only [Option.some.injEq] at h
      subst h
      exact parseVal_head_lbracket _ _ _ _ hp
  · exact Option.noConfusion h

theorem accept_iff {c : List Char} (hc : noEdgeWs c) :
    (((headIs c lbrace = true ∧ lastIs c rbrace = true) ∨
      (headIs c '[' = true ∧ lastIs c ']' = true)) ∧ (jsonParse c).isSome = true)
      ↔ isJsonObjOrArr c = true := by
  constructor
  · rintro ⟨hdelim, hsome⟩
    obtain ⟨v, hv⟩ := Option.isSome_iff_exists.mp hsome
    cases hdelim with
    | inl hd =>
      obtain ⟨m, hm⟩ := jsonParse_lbrace_obj hc hd.1 hv
      subst hm
      simp [isJsonObjOrArr, hv]
    | inr hd =>
      obtain ⟨m, hm⟩ := jsonParse_lbracket_arr hc hd.1 hv
      subst hm
      simp [isJsonObjOrArr, hv]
  · intro hj
    unfold isJsonObjOrArr at hj
    split at hj
    · rename_i m hv
      obtain ⟨h1, h2⟩ := jsonParse_obj_delims hc hv
      exact ⟨Or.inl ⟨h1, h2⟩, by simp [hv]⟩
    · rename_i m hv
      obtain ⟨h1, h2⟩ := jsonParse_arr_delims hc hv
      exact ⟨Or.inr ⟨h1, h2⟩, by simp [hv]⟩
    · exact Bool.noConfusion hj

theorem scanBlocks_eq_find (bs : List (List Char)) :
    scanBlocks bs = (bs.map stripLangTag).find? isJsonObjOrArr := by
  induction bs with
  | nil => rfl
  | cons m rest ih =>
    simp only [scanBlocks, List.map_cons]
    by_cases hacc : isJsonObjOrArr (stripLangTag m) = true
    · rw [List.find?_cons_of_pos _ hacc,
        if_pos ((accept_iff (stripLangTag_noEdgeWs m)).mpr hacc)]
    · rw [List.find?_cons_of_neg _ (by simpa using hacc),
        if_neg (fun hcond => hacc ((accept_iff (stripLangTag_noEdgeWs m)).mp hcond)), ih]

theorem sel_merge (s : List Char) :
    (match firstIdx (fun c => c = lbrace) s, firstIdx (fun c => c = '[') s with
     | some b, none => some (b, true)
     | some b, some k => if b < k then some (b, true) else some (k, false)
     | none, some k => some (k, false)
     | none, none => (none : Option (Nat × Bool)))
    = (match firstIdx (fun c => c = lbrace || c = '[') s with
       | none => none
       | some i => some (i, decide (s.get? i = some lbrace))) := by
  induction s with
  | nil => rfl
  | cons c s ih =>
    by_cases hb : c = lbrace
    · subst hb
      have hlk : ¬(lbrace = '[') := by decide
      cases hfk : firstIdx (fun c => decide (c = '[')) s <;>
        simp [firstIdx, hlk, hfk]
    · by_cases hk : c = '['
      · subst hk
        have hb2 : ¬(('[' : Char) = lbrace) := by decide
        cases hfb : firstIdx (fun c => decide (c = lbrace)) s <;>
          simp [firstIdx, hb2, hfb]
      · have ho : (decide (c = lbrace) || decide (c = '[')) = false := by
          simp [hb, hk]
        simp only [firstIdx, if_neg (by simpa using hb), if_neg (by simpa using hk), ho,
          Bool.false_eq_true, if_false]
        rcases hfb : firstIdx (fun c => decide (c = lbrace)) s with _ | b <;>
          rcases hfk : firstIdx (fun c => decide (c = '[')) s with _ | k <;>
          rcases hfo : firstIdx (fun c => decide (c = lbrace) || decide (c = '[')) s
            with _ | i <;>
          rw [hfb, hfk, hfo] at ih <;>
          simp only [Option.map_none', Option.map_some'] <;>
          try simp_all [List.get?_cons_succ]
        · -- both found but the merged scan empty: refuted by ih
          rcases Nat.lt_or_ge b k with hlt | hge
          · rw [if_pos hlt] at ih
            exact Option.noConfusion ih
          · rw [if_neg (Nat.not_lt.mpr hge)] at ih
            exact Option.noConfusion ih
        · -- both found, merged winner present
          rcases Nat.lt_or_ge b k with hlt | hge
          · rw [if_pos hlt] at ih ⊢
            injection ih with h1
            injection h1 with h2 h3
            subst h2
            rw [← h3]
          · rw [if_neg (Nat.not_lt.mpr hge)] at ih ⊢
            injection ih with h1
            injection h1 with h2 h3
            subst h2
            rw [← h3]

theorem spanBounds_eq_spec (s : List Char) :
    spanBounds s =
      (match firstIdx (fun c => c = lbrace || c = '[') s with
       | none => none
       | some i => spanEnd s i (decide (s.get? i = some lbrace))) := by
  have h := sel_merge s
  simp only [spanBounds]
  rcases hfb : firstIdx (fun c => decide (c = lbrace)) s with _ | b <;>
    rcases hfk : firstIdx (fun c => decide (c = '[')) s with _ | k <;>
    rw [hfb, hfk] at h <;>
    rcases hfo : firstIdx (fun c => decide (c = lbrace) || decide (c = '[')) s
      with _ | i <;>
    rw [hfo] at h
  · exact Option.noConfusion h
  · exact Option.noConfusion h
  · have h' : some (k, false) = some (i, decide (s.get? i = some lbrace)) := h
    injection h' with h1
    injection h1 with h2 h3
    show spanEnd s k false = spanEnd s i (decide (s.get? i = some lbrace))
    rw [h2, ← h3]
  · exact Option.noConfusion h
  · have h' : some (b, true) = some (i, decide (s.get? i = some lbrace)) := h
    injection h' with h1
    injection h1 with h2 h3
    show spanEnd s b true = spanEnd s i (decide (s.get? i = some lbrace))
    rw [h2, ← h3]
  · have h' : (if b < k then some (b, true) else some (k, false))
        = (none : Option (Nat × Bool)) := h
    rcases Nat.lt_or_ge b k with hlt | hge
    · rw [if_pos hlt] at h'
      exact Option.noConfusion h'
    · rw [if_neg (Nat.not_lt.mpr hge)] at h'
      exact Option.noConfusion h'
  · have h' : (if b < k then some (b, true) else some (k, false))
        = some (i, decide (s.get? i = some lbrace)) := h
    show (if b < k then spanEnd s b true else spanEnd s k false)
        = spanEnd s i (decide (s.get? i = some lbrace))
    rcases Nat.lt_or_ge b k with hlt | hge
    · rw [if_pos hlt] at h' ⊢
      injection h' with h1
      injection h1 with h2 h3
      rw [h2, ← h3]
    · rw [if_neg (Nat.not_lt.mpr hge)] at h' ⊢
      injection h' with h1
      injection h1 with h2 h3
      rw [h2, ← h3]

theorem phase2_eq_spec (s : List Char) : phase2 s = phase2Spec s := by
  simp only [phase2, phase2Spec, spanBounds_eq_spec]
  rcases firstIdx (fun c => c = lbrace || c = '[') s with _ | i
  · rfl
  · rcases spanEnd s i (decide (s.get? i = some lbrace)) with _ | ⟨st, e⟩ <;> rfl

theorem fencedBlocks_short {ps : List (List Char)} (h : ps.length ≤ 1) :
    fencedBlocks ps = [] := by
  match ps with
  | [] => rfl
  | [a] => rfl
  | a :: b :: r => simp at h

theorem cleanJsonL_eq_spec (l : List Char) : cleanJsonL l = cleanJsonSpecL l := by
  have hp1 : (if hasFence l then scanBlocks (fencedBlocks (splitTicks l)) else none)
      = phase1Spec l := by
    by_cases hf : hasFence l
    · rw [if_pos hf, scanBlocks_eq_find]
      rfl
    · rw [if_neg hf]
      have hlen : (splitTicks l).length ≤ 1 := by
        simp only [hasFence, decide_eq_true_eq] at hf
        omega
      simp [phase1Spec, fencedBlocks_short hlen]
  simp only [cleanJsonL, cleanJsonSpecL, hp1, phase2_eq_spec]

/-- C7: AntigravityLLM._clean_json is the two-phase extraction: phase 1
scans the fenced blocks and returns the first language-tag-stripped block
that parses as a JSON object or array; phase 2 locates the first opening
brace or bracket (whichever occurs first fixes object versus array) and the
last matching closer and returns that span if it parses; when both phases
fail the result is the stripped input text (not the raw text: the claim's
final clause is corrected by clean_json_strips_counterexample). -/
theorem clean_json_two_phase (t : String) :
    clean_json t = String.mk (cleanJsonSpecL t.toList) := by
  rw [clean_json, cleanJsonL_eq_spec]

/-- C7 counterexample: on input with surrounding whitespace and no JSON,
_clean_json returns the stripped text, which differs from the raw input. -/
theorem clean_json_strips_counterexample :
    clean_json "  hello  " = "hello" ∧ ("hello" : String) ≠ "  hello  " := by
  constructor
  · rfl
  · decide
